import Mathlib

/-!
Verification development for the `aura_exp_sniffer` reconnaissance client
(`aura_exp_sniffer/exp_cloud_requests.py`).

The Python source is shallowly embedded: pure string and JSON processing is
translated to executable Lean functions over `List Char` and an explicit JSON
value type; HTTP traffic is represented by oracle functions passed as
arguments, and every fallible code path returns `Except AErr`.  Machine-level
details that the claims never exercise (full `urlsplit` generality, UTF-8
error replacement, float literals in JSON) are modelled by the corresponding
total functions restricted to the behaviour the source actually relies on;
each such spot is noted next to its definition.
-/

/-- Error outcomes of the pipeline.  The Python code signals most of these by
`raise` after printing a message; distinct constructors keep the failure
modes apart. -/
inductive AErr where
  | noEndpoint
  | noFwuid
  | missingFields
  | decodeErr
  | attrErr
  | indexErr
  | keyErr
  | typeErr
  | auraException
  | malformed
deriving Repr, DecidableEq

/-! ## Basic string machinery (Python `in`, `str.startswith`, `%`-decoding) -/

/-- Substring test, Python's `needle in hay` on character lists. -/
def containsSub (needle : List Char) : List Char → Bool
  | [] => needle.isEmpty
  | c :: t => needle.isPrefixOf (c :: t) || containsSub needle t

/-- Substring test on `String`s, Python's `needle in hay`. -/
def strContains (hay needle : String) : Bool :=
  containsSub needle.data hay.data

/-! ## Endpoint prober (`AuraEndpointSelector`)

`select_aura_endpoint` probes the four fixed candidate paths with an empty
POST; a candidate is available iff the response body contains the literal
`aura:invalidSession`, network errors counting as unavailable.  The probe
responses are modelled as an oracle `probe : String → Option String`
(`none` = transport exception, swallowed by `_is_endpoint_available`). -/

/-- The fixed candidate path suffixes, in probe order. -/
def auraEndpoints : List String := ["aura", "s/aura", "s/sfsites/aura", "sfsites/aura"]

/-- `_is_endpoint_available`: POST the url, available iff the body contains
`aura:invalidSession`; an exception is swallowed and counts as unavailable. -/
def isEndpointAvailable (probe : String → Option String) (url : String) : Bool :=
  match probe url with
  | some body => strContains body "aura:invalidSession"
  | none => false

/-- `_check_endpoints_availability`: full candidate URLs that probed available,
probe order preserved. -/
def checkEndpointsAvailability (probe : String → Option String) (base : String) :
    List String :=
  (auraEndpoints.map (fun ep => base ++ "/" ++ ep)).filter (isEndpointAvailable probe)

/-- `_select_preferred_endpoint`: first available whose URL contains
`s/sfsites/`, else the first available. -/
def selectPreferredEndpoint (available : List String) : Option String :=
  match available.find? (fun url => strContains url "s/sfsites/") with
  | some url => some url
  | none => available.head?

/-- `select_aura_endpoint` for a fresh selector (`active_endpoint = None`):
raises when no candidate is available, otherwise picks the preferred one. -/
def selectAuraEndpoint (probe : String → Option String) (base : String) :
    Except AErr String :=
  match checkEndpointsAvailability probe base with
  | [] => .error .noEndpoint
  | url :: rest =>
    match selectPreferredEndpoint (url :: rest) with
    | some chosen => .ok chosen
    | none => .ok url


/-! ## Character classes, digits, hex -/

/-- ASCII decimal digit. -/
def isDigit (c : Char) : Bool := 48 ≤ c.toNat ∧ c.toNat ≤ 57

/-- JSON whitespace accepted by Python's `json.loads`. -/
def isJsonWs (c : Char) : Bool := c = ' ' ∨ c = '\t' ∨ c = '\n' ∨ c = '\r'

/-- Drop leading JSON whitespace. -/
def skipWs (cs : List Char) : List Char := cs.dropWhile isJsonWs

/-- Value of one hex digit, either case. -/
def hexVal (c : Char) : Option Nat :=
  if 48 ≤ c.toNat ∧ c.toNat ≤ 57 then some (c.toNat - 48)
  else if 97 ≤ c.toNat ∧ c.toNat ≤ 102 then some (c.toNat - 87)
  else if 65 ≤ c.toNat ∧ c.toNat ≤ 70 then some (c.toNat - 55)
  else none

/-- Lower-case hex digit for `n < 16` (also the decimal digit for `n < 10`). -/
def hexDigitLC (n : Nat) : Char := if n < 10 then Char.ofNat (48 + n) else Char.ofNat (87 + n)

/-- Upper-case hex digit for `n < 16`. -/
def hexDigitUC (n : Nat) : Char := if n < 10 then Char.ofNat (48 + n) else Char.ofNat (55 + n)

/-- Four lower-case hex digits of `n < 0x10000` (a `\uXXXX` escape body). -/
def hex4 (n : Nat) : List Char :=
  [hexDigitLC (n / 4096 % 16), hexDigitLC (n / 256 % 16), hexDigitLC (n / 16 % 16),
    hexDigitLC (n % 16)]

/-- Decimal digits of `n`, most significant first, given enough fuel. -/
def natSerF : Nat → Nat → List Char
  | 0, _ => []
  | fuel + 1, n =>
    if n < 10 then [hexDigitLC n] else natSerF fuel (n / 10) ++ [hexDigitLC (n % 10)]

/-- Decimal digits of `n`, most significant first. -/
def natSer (n : Nat) : List Char := natSerF (n + 1) n

/-- Numeric value of a digit string, most significant first. -/
def digitsVal (ds : List Char) : Nat := ds.foldl (fun a c => 10 * a + (c.toNat - 48)) 0

/-! ## JSON values

Parsed JSON documents (the results of `json.loads`) and serialized JSON (the
output of `json.dumps`).  Objects are field lists in document order;
duplicate keys can only come from a raw document text, and every lookup
modelling a Python `dict` access takes the last binding, matching the
last-wins construction of `dict`s in Python's JSON decoder.  Numbers are
restricted to integers: no input exercised by the claims contains a float
literal. -/

inductive Jval where
  | null : Jval
  | bool (b : Bool) : Jval
  | num (n : Int) : Jval
  | str (s : String) : Jval
  | arr (xs : List Jval) : Jval
  | obj (fs : List (String × Jval)) : Jval
deriving Repr

/-- JSON string escape of one character, `ensure_ascii` style: `"` and `\`
get two-character escapes, control characters and all non-ASCII characters
become `\uXXXX` escapes (astral characters as a surrogate pair). -/
def escChar (c : Char) : List Char :=
  if c = '"' then ['\\', '"']
  else if c = '\\' then ['\\', '\\']
  else if c.toNat < 32 then '\\' :: 'u' :: hex4 c.toNat
  else if c.toNat < 128 then [c]
  else if c.toNat < 65536 then '\\' :: 'u' :: hex4 c.toNat
  else
    '\\' :: 'u' :: hex4 (55296 + (c.toNat - 65536) / 1024) ++
      '\\' :: 'u' :: hex4 (56320 + (c.toNat - 65536) % 1024)

/-- JSON string body escape. -/
def escStr (cs : List Char) : List Char := (cs.map escChar).flatten

mutual

/-- Serialize a JSON value, compact separators, `ensure_ascii` output. -/
def serVal : Jval → List Char
  | .null => "null".data
  | .bool true => "true".data
  | .bool false => "false".data
  | .num n => if n < 0 then '-' :: natSer n.natAbs else natSer n.toNat
  | .str s => '"' :: escStr s.data ++ ['"']
  | .arr xs => '[' :: serItems xs ++ [']']
  | .obj fs => '{' :: serFields fs ++ ['}']

/-- Comma-separated serialization of array items. -/
def serItems : List Jval → List Char
  | [] => []
  | [x] => serVal x
  | x :: y :: t => serVal x ++ ',' :: serItems (y :: t)

/-- Comma-separated serialization of object fields. -/
def serFields : List (String × Jval) → List Char
  | [] => []
  | [(k, v)] => '"' :: escStr k.data ++ '"' :: ':' :: serVal v
  | (k, v) :: g :: t =>
    ('"' :: escStr k.data ++ '"' :: ':' :: serVal v) ++ ',' :: serFields (g :: t)

end

/-- Model of `json.dumps` (compact form). -/
def jsonDumps (v : Jval) : String := ⟨serVal v⟩

/-- Combined value of four hex digits. -/
def hex4Val (h1 h2 h3 h4 : Char) : Option Nat :=
  match hexVal h1, hexVal h2, hexVal h3, hexVal h4 with
  | some a, some b, some c, some d => some (((a * 16 + b) * 16 + c) * 16 + d)
  | _, _, _, _ => none

/-- Parse the body of a `\uXXXX` escape (input starts after `\u`),
including a following low surrogate for an astral code point.  Lone
surrogates — which Python's decoder would keep as unpaired surrogate code
units, unrepresentable in `Char` — are rejected. -/
def parseU : List Char → Option (Char × List Char)
  | h1 :: h2 :: h3 :: h4 :: t2 =>
    match hex4Val h1 h2 h3 h4 with
    | some n =>
      if 55296 ≤ n ∧ n ≤ 56319 then
        match t2 with
        | '\\' :: 'u' :: g1 :: g2 :: g3 :: g4 :: t3 =>
          match hex4Val g1 g2 g3 g4 with
          | some m =>
            if 56320 ≤ m ∧ m ≤ 57343 then
              some (Char.ofNat (65536 + (n - 55296) * 1024 + (m - 56320)), t3)
            else none
          | none => none
        | _ => none
      else if 56320 ≤ n ∧ n ≤ 57343 then none
      else some (Char.ofNat n, t2)
    | none => none
  | _ => none

mutual

/-- Parse a JSON string body (after the opening quote) up to the closing
quote, with fuel.  Handles the standard escapes, `\uXXXX`, and surrogate
pairs. -/
def parseStrL : Nat → List Char → Option (List Char × List Char)
  | 0, _ => none
  | _ + 1, [] => none
  | fuel + 1, c :: t =>
    if c = '"' then some ([], t)
    else if c = '\\' then parseEsc fuel t
    else if c.toNat < 32 then none
    else (parseStrL fuel t).map (fun p => (c :: p.1, p.2))

/-- Parse one escape sequence after a backslash, then the rest of the
string body. -/
def parseEsc : Nat → List Char → Option (List Char × List Char)
  | 0, _ => none
  | fuel + 1, cs =>
    match cs with
    | '"' :: t2 => (parseStrL fuel t2).map (fun p => ('"' :: p.1, p.2))
    | '\\' :: t2 => (parseStrL fuel t2).map (fun p => ('\\' :: p.1, p.2))
    | '/' :: t2 => (parseStrL fuel t2).map (fun p => ('/' :: p.1, p.2))
    | 'b' :: t2 => (parseStrL fuel t2).map (fun p => (Char.ofNat 8 :: p.1, p.2))
    | 'f' :: t2 => (parseStrL fuel t2).map (fun p => (Char.ofNat 12 :: p.1, p.2))
    | 'n' :: t2 => (parseStrL fuel t2).map (fun p => ('\n' :: p.1, p.2))
    | 'r' :: t2 => (parseStrL fuel t2).map (fun p => (Char.ofNat 13 :: p.1, p.2))
    | 't' :: t2 => (parseStrL fuel t2).map (fun p => ('\t' :: p.1, p.2))
    | 'u' :: t2 =>
      match parseU t2 with
      | some (ch, t3) => (parseStrL fuel t3).map (fun p => (ch :: p.1, p.2))
      | none => none
    | _ => none

end

mutual

/-- Parse one JSON value with fuel, model of Python's `json.loads` grammar
restricted to integer numerals (leading-zero numerals rejected as in the
JSON grammar). -/
def parseV : Nat → List Char → Option (Jval × List Char)
  | 0, _ => none
  | fuel + 1, cs =>
    match skipWs cs with
    | [] => none
    | c :: t =>
      if c = 'n' then
        match t with
        | 'u' :: 'l' :: 'l' :: t2 => some (.null, t2)
        | _ => none
      else if c = 't' then
        match t with
        | 'r' :: 'u' :: 'e' :: t2 => some (.bool true, t2)
        | _ => none
      else if c = 'f' then
        match t with
        | 'a' :: 'l' :: 's' :: 'e' :: t2 => some (.bool false, t2)
        | _ => none
      else if c = '"' then
        (parseStrL fuel t).map (fun p => (.str ⟨p.1⟩, p.2))
      else if c = '[' then
        match skipWs t with
        | [] => none
        | c2 :: t2 =>
          if c2 = ']' then some (.arr [], t2)
          else (parseElems fuel (c2 :: t2)).map (fun p => (.arr p.1, p.2))
      else if c = '{' then
        match skipWs t with
        | [] => none
        | c2 :: t2 =>
          if c2 = '}' then some (.obj [], t2)
          else (parseFields fuel (c2 :: t2)).map (fun p => (.obj p.1, p.2))
      else if c = '-' then
        let ds := t.takeWhile isDigit
        if ds.isEmpty then none
        else if ds.head? = some '0' ∧ ds.length ≠ 1 then none
        else some (.num (-(digitsVal ds : Int)), t.dropWhile isDigit)
      else if isDigit c then
        let ds := (c :: t).takeWhile isDigit
        if ds.head? = some '0' ∧ ds.length ≠ 1 then none
        else some (.num (digitsVal ds), (c :: t).dropWhile isDigit)
      else none

/-- Parse the items of a non-empty JSON array after the opening bracket. -/
def parseElems : Nat → List Char → Option (List Jval × List Char)
  | 0, _ => none
  | fuel + 1, cs =>
    match parseV fuel cs with
    | none => none
    | some (v, r) =>
      match skipWs r with
      | ',' :: r2 =>
        match parseElems fuel r2 with
        | none => none
        | some (vs, r3) => some (v :: vs, r3)
      | ']' :: r2 => some ([v], r2)
      | _ => none

/-- Parse the fields of a non-empty JSON object after the opening brace. -/
def parseFields : Nat → List Char → Option (List (String × Jval) × List Char)
  | 0, _ => none
  | fuel + 1, cs =>
    match skipWs cs with
    | '"' :: t =>
      match parseStrL fuel t with
      | none => none
      | some (k, r) =>
        match skipWs r with
        | ':' :: r2 =>
          match parseV fuel r2 with
          | none => none
          | some (v, r3) =>
            match skipWs r3 with
            | ',' :: r4 =>
              match parseFields fuel r4 with
              | none => none
              | some (fs, r5) => some ((⟨k⟩, v) :: fs, r5)
            | '}' :: r4 => some ([(⟨k⟩, v)], r4)
            | _ => none
        | _ => none
    | _ => none

end

/-- Model of `json.loads`: parse one value, demand only whitespace after. -/
def jsonLoads (s : String) : Option Jval :=
  match parseV (s.data.length + 1) s.data with
  | some (v, r) => if (skipWs r).isEmpty then some v else none
  | none => none

/-! ## Percent-encoding (`urllib.parse.quote` / `urllib.parse.unquote`) -/

/-- Characters `urllib.parse.quote` never encodes (letters, digits, and
`_.-~`), with an empty `safe` set. -/
def isSafeUrl (c : Char) : Bool :=
  (65 ≤ c.toNat ∧ c.toNat ≤ 90) ∨ (97 ≤ c.toNat ∧ c.toNat ≤ 122) ∨
    (48 ≤ c.toNat ∧ c.toNat ≤ 57) ∨ c = '_' ∨ c = '.' ∨ c = '-' ∨ c = '~'

/-- UTF-8 bytes of a character. -/
def utf8Bytes (c : Char) : List Nat :=
  let n := c.toNat
  if n < 128 then [n]
  else if n < 2048 then [192 + n / 64, 128 + n % 64]
  else if n < 65536 then [224 + n / 4096, 128 + n / 64 % 64, 128 + n % 64]
  else [240 + n / 262144, 128 + n / 4096 % 64, 128 + n / 64 % 64, 128 + n % 64]

/-- Percent-encoding of one byte, upper-case hex. -/
def pctEnc (b : Nat) : List Char := ['%', hexDigitUC (b / 16 % 16), hexDigitUC (b % 16)]

/-- Model of `urllib.parse.quote(·, safe="")` on one character. -/
def quoteChar (c : Char) : List Char :=
  if isSafeUrl c then [c] else ((utf8Bytes c).map pctEnc).flatten

/-- Model of `urllib.parse.quote(·, safe="")` on a character list. -/
def quoteL (cs : List Char) : List Char := (cs.map quoteChar).flatten

/-- Model of `urllib.parse.quote(·, safe="")`. -/
def quote (s : String) : String := ⟨quoteL s.data⟩

/-- One `%XX` triple: the byte value and the remainder after the two hex
digits (input starts after the `%`). -/
def pctHex : List Char → Option (Nat × List Char)
  | h1 :: h2 :: t2 =>
    match hexVal h1, hexVal h2 with
    | some a, some b => some (16 * a + b, t2)
    | _, _ => none
  | _ => none

/-- Collect a maximal run of `%XX` triples as byte values, with fuel. -/
def pctRunF : Nat → List Char → List Nat × List Char
  | 0, cs => ([], cs)
  | _ + 1, [] => ([], [])
  | fuel + 1, c :: t =>
    if c = '%' then
      match pctHex t with
      | some (b, t2) => (b :: (pctRunF fuel t2).1, (pctRunF fuel t2).2)
      | none => ([], c :: t)
    else ([], c :: t)

/-- Collect a maximal run of `%XX` triples as byte values. -/
def pctRun (cs : List Char) : List Nat × List Char := pctRunF (cs.length + 1) cs

/-- Decode one multi-byte UTF-8 sequence: the code point and the remaining
bytes (input starts at the continuation bytes, `b` is the lead byte). -/
def utf8Multi (b : Nat) (t : List Nat) : Option (Char × List Nat) :=
  if 192 ≤ b ∧ b < 224 then
    match t with
    | b1 :: t1 =>
      if 128 ≤ b1 ∧ b1 < 192 then some (Char.ofNat ((b - 192) * 64 + (b1 - 128)), t1)
      else none
    | _ => none
  else if 224 ≤ b ∧ b < 240 then
    match t with
    | b1 :: b2 :: t1 =>
      if (128 ≤ b1 ∧ b1 < 192) ∧ (128 ≤ b2 ∧ b2 < 192) then
        some (Char.ofNat (((b - 224) * 64 + (b1 - 128)) * 64 + (b2 - 128)), t1)
      else none
    | _ => none
  else if 240 ≤ b ∧ b < 248 then
    match t with
    | b1 :: b2 :: b3 :: t1 =>
      if (128 ≤ b1 ∧ b1 < 192) ∧ (128 ≤ b2 ∧ b2 < 192) ∧ (128 ≤ b3 ∧ b3 < 192) then
        some (Char.ofNat ((((b - 240) * 64 + (b1 - 128)) * 64 + (b2 - 128)) * 64 + (b3 - 128)),
          t1)
      else none
    | _ => none
  else none

/-- UTF-8 decoding of a byte run with fuel.  Valid sequences decode to their
code point; malformed bytes produce U+FFFD, a simplification of Python's
`errors="replace"` resynchronization that no exercised input reaches. -/
def utf8DecF : Nat → List Nat → List Char
  | 0, _ => []
  | _ + 1, [] => []
  | fuel + 1, b :: t =>
    if b < 128 then Char.ofNat b :: utf8DecF fuel t
    else
      match utf8Multi b t with
      | some (ch, t1) => ch :: utf8DecF fuel t1
      | none => Char.ofNat 65533 :: utf8DecF fuel t

/-- UTF-8 decoding of a byte run. -/
def utf8Dec (bs : List Nat) : List Char := utf8DecF (bs.length + 1) bs

/-- Model of `urllib.parse.unquote` on a character list, with fuel: maximal
`%XX` runs are decoded as UTF-8 byte sequences, everything else passes
through unchanged. -/
def unqF : Nat → List Char → List Char
  | 0, _ => []
  | _ + 1, [] => []
  | fuel + 1, c :: t =>
    if c = '%' then
      match pctHex t with
      | some _ => utf8Dec (pctRun (c :: t)).1 ++ unqF fuel (pctRun (c :: t)).2
      | none => c :: unqF fuel t
    else c :: unqF fuel t

/-- Model of `urllib.parse.unquote`. -/
def unquote (s : String) : String := ⟨unqF (s.data.length + 1) s.data⟩


/-- Tail condition for the parser round trip: the remainder must not start
with a digit (digits would be absorbed into a preceding numeral). -/
def noDigitHead : List Char → Prop
  | [] => True
  | c :: _ => isDigit c = false


/-! ## Python dict and truthiness helpers -/

/-- Python `dict.get` on a parsed JSON object: last binding wins (duplicate
keys in a JSON text collapse to the last in Python's decoder), and a JSON
`null` value is indistinguishable from an absent key (both are `None`). -/
def pyGet (fs : List (String × Jval)) (k : String) : Option Jval :=
  match List.lookup k fs.reverse with
  | some .null => none
  | some v => some v
  | none => none

/-- Python truthiness of an optional parsed JSON value. -/
def jTruthy : Option Jval → Bool
  | none => false
  | some .null => false
  | some (.bool b) => b
  | some (.num n) => n ≠ 0
  | some (.str s) => s ≠ ""
  | some (.arr xs) => !xs.isEmpty
  | some (.obj fs) => !fs.isEmpty

/-! ## Config extractor (`AuraConfigLoader`)

The regex `\/s\/sfsites\/l\/([^\/]+fwuid[^\/]+)` is modelled by a scan for
the first position carrying the literal `/s/sfsites/l/` followed by a
maximal `/`-free run that contains `fwuid` with at least one character on
each side (the semantics of the greedy pattern with backtracking). -/

/-- Would `fwuid` match here with at least one trailing character? -/
def fwuidAt (cs : List Char) : Bool :=
  ['f', 'w', 'u', 'i', 'd'].isPrefixOf cs && decide (5 < cs.length)

/-- Does `fwuid` occur at some position `≥ 1`, with a trailing character? -/
def fwuidInner : List Char → Bool
  | [] => false
  | _ :: t => fwuidAt t || fwuidInner t

/-- Try the embedded-config pattern at this position. -/
def segAt (cs : List Char) : Option (List Char) :=
  if ['/', 's', '/', 's', 'f', 's', 'i', 't', 'e', 's', '/', 'l', '/'].isPrefixOf cs then
    let run := (cs.drop 13).takeWhile (fun c => c ≠ '/')
    if fwuidInner run then some run else none
  else none

/-- Leftmost match of the embedded-config pattern (the captured group). -/
def findSeg : List Char → Option (List Char)
  | [] => none
  | c :: t =>
    match segAt (c :: t) with
    | some r => some r
    | none => findSeg t

/-- `_extract_aura_endpoint_details`: raise unless `fwuid` occurs in the
body, scrape the embedded URL-encoded JSON config, decode and parse it; an
unmatched pattern yields the empty details `{}`. -/
def extractAuraEndpointDetails (body : String) : Except AErr Jval :=
  if strContains body "fwuid" = false then .error .noFwuid
  else
    match findSeg body.data with
    | some seg =>
      match jsonLoads (unquote (String.mk seg)) with
      | some v => .ok v
      | none => .error .decodeErr
    | none => .ok (.obj [])

/-- `_validate_aura_endpoint_details`: `all(details.get(key) for key in
["fwuid", "app", "loaded"])` with Python truthiness. -/
def validateAuraEndpointDetails (d : Jval) : Except AErr Unit :=
  match d with
  | .obj fs =>
    if jTruthy (pyGet fs "fwuid") && jTruthy (pyGet fs "app") && jTruthy (pyGet fs "loaded")
    then .ok ()
    else .error .missingFields
  | _ => .error .attrErr

/-- `_build_aura_config`: the fixed-shape Aura context object. -/
def buildAuraConfig : Jval → Except AErr Jval
  | .obj fs =>
    .ok (.obj [("mode", .str "PROD"), ("fwuid", (pyGet fs "fwuid").getD .null),
      ("app", (pyGet fs "app").getD .null), ("loaded", (pyGet fs "loaded").getD .null),
      ("dn", .arr []), ("globals", .obj []), ("uad", .bool false)])
  | _ => .error .attrErr

/-! ## Bootstrap URL extraction

The regex `<script([^>]*)?>.*?</script>` (no DOTALL: `.` refuses newlines)
is modelled by a left-to-right scan producing the attribute blocks of all
non-overlapping matches. -/

/-- Scan for `</script>` without crossing a newline; returns the remainder
after the close tag. -/
def findCloseScript : Nat → List Char → Option (List Char)
  | 0, _ => none
  | _ + 1, [] => none
  | fuel + 1, c :: t =>
    if ['<', '/', 's', 'c', 'r', 'i', 'p', 't', '>'].isPrefixOf (c :: t) then
      some ((c :: t).drop 9)
    else if c = '\n' then none
    else findCloseScript fuel t

/-- All `<script...>` attribute blocks of non-overlapping matches, with
fuel. -/
def scriptScanF : Nat → List Char → List (List Char)
  | 0, _ => []
  | _ + 1, [] => []
  | fuel + 1, c :: t =>
    if ['<', 's', 'c', 'r', 'i', 'p', 't'].isPrefixOf (c :: t) then
      let r := (c :: t).drop 7
      let attrs := r.takeWhile (fun x => x ≠ '>')
      match r.drop attrs.length with
      | '>' :: t2 =>
        match findCloseScript (t2.length + 1) t2 with
        | some rem => attrs :: scriptScanF fuel rem
        | none => scriptScanF fuel t
      | _ => scriptScanF fuel t
    else scriptScanF fuel t

/-- All `<script...>` attribute blocks. -/
def scriptScan (cs : List Char) : List (List Char) := scriptScanF (cs.length + 1) cs

/-- Non-overlapping left-to-right removal of a pattern, Python's
`str.replace(pat, "")`, with fuel. -/
def removeSubAllF (pat : List Char) : Nat → List Char → List Char
  | 0, _ => []
  | _ + 1, [] => []
  | fuel + 1, c :: t =>
    if pat.isPrefixOf (c :: t) ∧ pat ≠ [] then removeSubAllF pat fuel ((c :: t).drop pat.length)
    else c :: removeSubAllF pat fuel t

/-- Non-overlapping left-to-right removal of a pattern. -/
def removeSubAll (pat cs : List Char) : List Char := removeSubAllF pat (cs.length + 1) cs

/-- Scheme characters accepted by `urlsplit`. -/
def isSchemeChar (c : Char) : Bool :=
  (65 ≤ c.toNat ∧ c.toNat ≤ 90) ∨ (97 ≤ c.toNat ∧ c.toNat ≤ 122) ∨
    (48 ≤ c.toNat ∧ c.toNat ≤ 57) ∨ c = '+' ∨ c = '-' ∨ c = '.'

/-- Split at the first `://`. -/
def splitSchemeRest : List Char → Option (List Char × List Char)
  | [] => none
  | c :: t =>
    if [':', '/', '/'].isPrefixOf (c :: t) then some ([], (c :: t).drop 3)
    else
      match splitSchemeRest t with
      | some p => some (c :: p.1, p.2)
      | none => none

/-- Model of `urlsplit(url).scheme + "://" + urlsplit(url).netloc` for
`scheme://host...` URLs: the lower-cased scheme and the host up to the next
`/`, `?` or `#`; URLs with no valid `scheme://` prefix yield `"://"`,
matching what the source concatenates out of empty scheme and netloc. -/
def urlSchemeHost (url : String) : String :=
  match splitSchemeRest url.data with
  | some (sch, rest) =>
    match sch with
    | [] => "://"
    | c0 :: _ =>
      if ((65 ≤ c0.toNat ∧ c0.toNat ≤ 90) ∨ (97 ≤ c0.toNat ∧ c0.toNat ≤ 122)) ∧
          sch.all isSchemeChar then
        String.mk (sch.map Char.toLower) ++ "://" ++
          String.mk (rest.takeWhile (fun c => c ≠ '/' ∧ c ≠ '?' ∧ c ≠ '#'))
      else "://"
  | none => "://"

/-- `_extract_bootstrap_url`: the last `<script>` attribute block, stripped
of `src="`, `"` and spaces, resolved against the scheme and host of the base
URL; an empty match list is the Python `[-1]` `IndexError`. -/
def extractBootstrapUrl (url body : String) : Except AErr String :=
  match (scriptScan body.data).getLast? with
  | none => .error .indexErr
  | some attrs =>
    .ok (urlSchemeHost url ++ String.mk
      (((removeSubAll ['s', 'r', 'c', '=', '"'] attrs).filter (fun c => c ≠ '"')).filter
        (fun c => c ≠ ' ')))

/-! ## Login-page redirect handling and the config loader pipeline

HTTP traffic is an oracle `fetch : String → Option String → String` mapping
a URL and an optional `sid` cookie to a response body; the loader records
every fetch it performs in order. -/

/-- A performed page fetch: url and the `sid` cookie sent, if any. -/
structure FetchCall where
  url : String
  cookie : Option String
deriving Repr, DecidableEq

/-- `BasicHttp.__init__`: the `sid` cookie is set only for a non-empty
session id. -/
def basicHttpCookie (sid : String) : Option String :=
  if sid = "" then none else some sid

/-- Match a literal at the head, returning the remainder. -/
def litAt : List Char → List Char → Option (List Char)
  | [], cs => some cs
  | _ :: _, [] => none
  | l :: lt, c :: t => if c = l then litAt lt t else none

/-- Try the redirect pattern `window.location.href =\'([^\']+)` at this
position; the `.` of the Python pattern is an any-char-but-newline
wildcard. -/
def hrefAt (cs : List Char) : Option (List Char) :=
  match litAt ['w', 'i', 'n', 'd', 'o', 'w'] cs with
  | none => none
  | some r1 =>
    match r1 with
    | [] => none
    | c1 :: r2 =>
      if c1 = '\n' then none
      else
        match litAt ['l', 'o', 'c', 'a', 't', 'i', 'o', 'n'] r2 with
        | none => none
        | some r3 =>
          match r3 with
          | [] => none
          | c2 :: r4 =>
            if c2 = '\n' then none
            else
              match litAt ['h', 'r', 'e', 'f', ' ', '=', '\''] r4 with
              | none => none
              | some r5 =>
                let cap := r5.takeWhile (fun c => c ≠ '\'')
                if cap.isEmpty then none else some cap

/-- Leftmost match of the redirect pattern (the captured group). -/
def searchHref : List Char → Option (List Char)
  | [] => none
  | c :: t =>
    match hrefAt (c :: t) with
    | some cap => some cap
    | none => searchHref t

/-- `_handle_login_page_redirects`: if the body contains the literal
`window.location.href ='<baseUrl>`, re-fetch the captured single-quoted
target without any cookie; a containment hit with no regex match is the
Python `None.group(1)` `AttributeError`.  Returns the extra fetches
performed and the resulting body. -/
def handleLoginPageRedirects (fetch : String → Option String → String) (url : String)
    (body : String) : List FetchCall × Except AErr String :=
  if strContains body ("window.location.href ='" ++ url) then
    match searchHref body.data with
    | some cap => ([⟨String.mk cap, none⟩], .ok (fetch (String.mk cap) none))
    | none => ([], .error .attrErr)
  else ([], .ok body)

/-- The tail of `get_aura_config` on the (post-redirect-handling) body:
extract the bootstrap URL and the Aura endpoint details, validate them and
build the Aura context; the source additionally `json.dumps`-serializes the
context object of the returned pair. -/
def getAuraConfigResult (url : String) : Except AErr String → Except AErr (Jval × String)
  | .error e => .error e
  | .ok body =>
    match extractBootstrapUrl url body with
    | .error e => .error e
    | .ok bs =>
      match extractAuraEndpointDetails body with
      | .error e => .error e
      | .ok details =>
        match validateAuraEndpointDetails details with
        | .error e => .error e
        | .ok _ =>
          match buildAuraConfig details with
          | .error e => .error e
          | .ok cfg => .ok (cfg, bs)

/-- `get_aura_config` proper: the fetch log and the outcome. -/
def getAuraConfig (fetch : String → Option String → String) (url sid : String) :
    List FetchCall × Except AErr (Jval × String) :=
  let cookie := basicHttpCookie sid
  let redirect := handleLoginPageRedirects fetch url (fetch url cookie)
  (⟨url, cookie⟩ :: redirect.1, getAuraConfigResult url redirect.2)

/-- The extraction-to-context part of `get_aura_config` applied to one page
body: details, validation, context. -/
def auraConfigOfBody (body : String) : Except AErr Jval :=
  match extractAuraEndpointDetails body with
  | .error e => .error e
  | .ok details =>
    match validateAuraEndpointDetails details with
    | .error e => .error e
    | .ok _ => buildAuraConfig details

/-! ## Aura action request (`AuraActionRequest`) -/

/-- One HTTP POST as assembled by `send_request` via `BasicHttp`. -/
structure HttpReq where
  url : String
  formValues : List (String × String)
  cookies : List (String × String)
deriving Repr, DecidableEq

/-- The configuration slice `AuraActionRequest.__init__` copies out of the
shared session context. -/
structure ActionConfig where
  active_endpoint : String
  aura_config : String
  aura_token : String
  session_id : String

/-- The state of a constructed `AuraActionRequest`: note the session id is
stored but `send_request` constructs its `BasicHttp` with no argument. -/
structure AuraActionRequest where
  aura_endpoint_url : String
  payload : String
  aura_endpoint_config : String
  aura_token : String
  session_id : String
  return_raw_response : Bool

/-- `AuraActionRequest.__init__`. -/
def mkAuraActionRequest (payload : Jval) (config : ActionConfig)
    (return_full_response : Bool) : AuraActionRequest :=
  { aura_endpoint_url := config.active_endpoint
    payload := jsonDumps payload
    aura_endpoint_config := config.aura_config
    aura_token := config.aura_token
    session_id := config.session_id
    return_raw_response := return_full_response }

/-- The POST issued by `send_request`: three form fields, and the cookies of
a `BasicHttp()` constructed with no session id. -/
def sendRequestPost (r : AuraActionRequest) : HttpReq :=
  { url := r.aura_endpoint_url
    formValues := [("message", r.payload), ("aura.context", r.aura_endpoint_config),
      ("aura.token", r.aura_token)]
    cookies :=
      match basicHttpCookie "" with
      | none => []
      | some sid => [("sid", sid)] }

/-- The envelope-unwrapping part of `send_request` on an already parsed
envelope. -/
def unwrapEnvelope (raw : Bool) (env : Jval) : Except AErr Jval :=
  if raw then .ok env
  else
    match env with
    | .obj fs =>
      match pyGet fs "exceptionEvent" with
      | some (.bool true) => .error .auraException
      | _ =>
        match pyGet fs "actions" with
        | none => .error .malformed
        | some (.arr []) => .error .indexErr
        | some (.arr (a :: _)) =>
          match a with
          | .obj afs =>
            match pyGet afs "state" with
            | none => .error .malformed
            | some _ => .ok ((pyGet afs "returnValue").getD .null)
          | _ => .error .attrErr
        | some (.str s) => if s = "" then .error .indexErr else .error .attrErr
        | some (.obj _) => .error .keyErr
        | some _ => .error .typeErr
    | _ => .error .attrErr

/-- `send_request` response handling: parse the body as JSON, return the
raw envelope in raw mode, otherwise unwrap it checking `exceptionEvent`,
`actions` and `actions[0].state`. -/
def processResponse (raw : Bool) (body : String) : Except AErr Jval :=
  match jsonLoads body with
  | none => .error .decodeErr
  | some env => unwrapEnvelope raw env

/-! ## Component/descriptor miner (`AuraComponentCollector`) -/

mutual

/-- `_find_component_descriptors` on a parsed JSON object: record
markup-prefixed string `descriptor` values (all occurrences of `markup://`
removed, Python `str.replace`), recurse into dict values and into dict
items of list values; a non-string value under a `descriptor` key crashes
(`value.startswith` raises `AttributeError`).  The surrounding `set(...)`
is applied by the caller. -/
def findDesc : Jval → Except AErr (List String)
  | .obj fs => fdFields fs
  | _ => .error .attrErr

/-- Walk the items of an object. -/
def fdFields : List (String × Jval) → Except AErr (List String)
  | [] => .ok []
  | (k, v) :: t =>
    if k = "descriptor" then
      match v with
      | .str sv =>
        if "markup://".data.isPrefixOf sv.data then
          match fdFields t with
          | .error e => .error e
          | .ok rest => .ok (String.mk (removeSubAll "markup://".data sv.data) :: rest)
        else fdFields t
      | _ => .error .attrErr
    else
      match v with
      | .obj gs =>
        match fdFields gs with
        | .error e => .error e
        | .ok inner =>
          match fdFields t with
          | .error e => .error e
          | .ok rest => .ok (inner ++ rest)
      | .arr xs =>
        match fdItems xs with
        | .error e => .error e
        | .ok inner =>
          match fdFields t with
          | .error e => .error e
          | .ok rest => .ok (inner ++ rest)
      | _ => fdFields t

/-- Walk the items of a list value: only dict items are visited. -/
def fdItems : List Jval → Except AErr (List String)
  | [] => .ok []
  | x :: t =>
    match x with
    | .obj gs =>
      match fdFields gs with
      | .error e => .error e
      | .ok inner =>
        match fdItems t with
        | .error e => .error e
        | .ok rest => .ok (inner ++ rest)
    | _ => fdItems t

end

/-- The `collect` accumulation step for the descriptors of one route
response: keep a descriptor if no excluded namespace substring occurs in it
and it was not collected before, preserving insertion order. -/
def accumulateComponents (excluded : List String) (acc : List String)
    (descriptors : List String) : List String :=
  descriptors.foldl
    (fun a cmp =>
      if (!excluded.any (fun x => strContains cmp x)) && !a.contains cmp then a ++ [cmp]
      else a)
    acc

/-- `AuraComponentCollector.collect` over the parsed responses of the
routes, given the configured excluded standard namespaces: mine each
response, deduplicate per route (`set(...)`), and accumulate. -/
def collectComponents (excluded : List String) : List String → List Jval →
    Except AErr (List String)
  | acc, [] => .ok acc
  | acc, r :: rs =>
    match findDesc r with
    | .error e => .error e
    | .ok ds => collectComponents excluded (accumulateComponents excluded acc ds.dedup) rs

/-- Reachability of a string as a `descriptor` value in a parsed JSON
response, through object values and objects inside list values — the paths
the miner visits. -/
inductive DescIn : Jval → String → Prop
  | here (fs : List (String × Jval)) (s : String) :
      ("descriptor", Jval.str s) ∈ fs → DescIn (.obj fs) s
  | nestObj (fs : List (String × Jval)) (k : String) (w : Jval) (s : String) :
      (k, w) ∈ fs → k ≠ "descriptor" → DescIn w s → DescIn (.obj fs) s
  | nestArr (fs : List (String × Jval)) (k : String) (xs : List Jval) (x : Jval) (s : String) :
      (k, .arr xs) ∈ fs → k ≠ "descriptor" → x ∈ xs → DescIn x s → DescIn (.obj fs) s

/-- `s` is a descriptor the miner yields from response `v`: some reachable
`descriptor` string value `raw` starts with `markup://` and `s` is `raw`
with every occurrence of `markup://` removed (Python `str.replace`). -/
def minedFrom (v : Jval) (s : String) : Prop :=
  ∃ raw : String, DescIn v raw ∧ "markup://".data.isPrefixOf raw.data = true ∧
    s = String.mk (removeSubAll "markup://".data raw.data)

/-! ## Per-route payload construction (`AuraComponentCollector`)

`_create_payload_for_getCustomComponents` mutates the shared template; the
six subscript assignments are modelled as one path-update function each. -/

/-- One step of a Python subscript path: a dict key or list index 0. -/
inductive PStep where
  | key (k : String)
  | idxZero

/-- First-binding lookup in an object field list (Python dict access on
objects with unique keys). -/
def jGetF : List (String × Jval) → String → Option Jval
  | [], _ => none
  | (k2, v) :: t, k => if k2 = k then some v else jGetF t k

/-- Python dict assignment `d[k] = v`: replace the first binding in place,
or append a new one. -/
def objSet : List (String × Jval) → String → Jval → List (String × Jval)
  | [], k, v => [(k, v)]
  | (k2, w) :: t, k, v => if k2 = k then (k, v) :: t else (k2, w) :: objSet t k v

/-- Chained Python subscript assignment `p[s1][s2]...[sn] = nv`: every
intermediate subscript is a read (raising `KeyError` / `IndexError` /
`TypeError` when it fails), the last is a write. -/
def updatePath : Jval → List PStep → Jval → Except AErr Jval
  | .obj fs, [.key k], nv => .ok (.obj (objSet fs k nv))
  | .obj fs, .key k :: p1 :: p2, nv =>
    match jGetF fs k with
    | none => .error .keyErr
    | some w =>
      match updatePath w (p1 :: p2) nv with
      | .error e => .error e
      | .ok w2 => .ok (.obj (objSet fs k w2))
  | .arr xs, [.idxZero], nv =>
    match xs with
    | [] => .error .indexErr
    | _ :: t => .ok (.arr (nv :: t))
  | .arr xs, .idxZero :: p1 :: p2, nv =>
    match xs with
    | [] => .error .indexErr
    | x :: t =>
      match updatePath x (p1 :: p2) nv with
      | .error e => .error e
      | .ok x2 => .ok (.arr (x2 :: t))
  | _, _, _ => .error .typeErr

/-- A route record as built by `AuraRoutesCollector`. -/
structure Route where
  id : Jval
  event : Jval
  themeLayoutType : Jval
  view_uuid : Jval
  publishedChangelistNum : Jval
  brandingSetId : Jval

/-- `_create_payload_for_getCustomComponents`: the six subscript
assignments, in source order, on the (shared) payload object. -/
def createPayload (p : Jval) (r : Route) : Except AErr Jval :=
  match updatePath p [.key "actions", .idxZero, .key "params", .key "attributes",
      .key "viewId"] r.id with
  | .error e => .error e
  | .ok p1 =>
    match updatePath p1 [.key "actions", .idxZero, .key "params", .key "attributes",
        .key "routeType"] r.event with
    | .error e => .error e
    | .ok p2 =>
      match updatePath p2 [.key "actions", .idxZero, .key "params", .key "attributes",
          .key "themeLayoutType"] r.themeLayoutType with
      | .error e => .error e
      | .ok p3 =>
        match updatePath p3 [.key "actions", .idxZero, .key "params", .key "attributes",
            .key "params", .key "viewid"] r.view_uuid with
        | .error e => .error e
        | .ok p4 =>
          match updatePath p4 [.key "actions", .idxZero, .key "params",
              .key "publishedChangelistNum"] r.publishedChangelistNum with
          | .error e => .error e
          | .ok p5 =>
            updatePath p5 [.key "actions", .idxZero, .key "params",
              .key "brandingSetId"] r.brandingSetId

/-- The loop of `collect`: the template object is shared and mutated across
iterations, so each payload is built from the previous iteration's state.
Returns the payloads as sent. -/
def collectPayloads (p : Jval) : List Route → Except AErr (List Jval)
  | [] => .ok []
  | r :: rs =>
    match createPayload p r with
    | .error e => .error e
    | .ok q =>
      match collectPayloads q rs with
      | .error e => .error e
      | .ok l => .ok (q :: l)

/-- Left-to-right sequence of dict assignments. -/
def objSets (fs : List (String × Jval)) (us : List (String × Jval)) : List (String × Jval) :=
  us.foldl (fun a kv => objSet a kv.1 kv.2) fs

/-- Normal form of one `_create_payload_for_getCustomComponents` pass over a
template decomposed as top fields `fs`, first action fields `afs`, remaining
actions `t`, params fields `psf`, attributes fields `atf` and nested
attributes-params fields `apf`. -/
def buildPayload (fs afs : List (String × Jval)) (t : List Jval)
    (psf atf apf : List (String × Jval)) (r : Route) : Jval :=
  .obj (objSet fs "actions" (.arr (.obj (objSet afs "params" (.obj
    (objSet (objSet (objSet psf "attributes" (.obj
      (objSet (objSet (objSet (objSet atf "viewId" r.id) "routeType" r.event)
        "themeLayoutType" r.themeLayoutType)
        "params" (.obj (objSet apf "viewid" r.view_uuid)))))
      "publishedChangelistNum" r.publishedChangelistNum)
      "brandingSetId" r.brandingSetId))) :: t)))

/-! ## Theorems -/

theorem containsSub_of_isPrefixOf {needle hay : List Char}
    (h : needle.isPrefixOf hay = true) : containsSub needle hay = true := by
  cases hay with
  | nil =>
    cases needle with
    | nil => rfl
    | cons c t => simp [List.isPrefixOf] at h
  | cons c t => simp [containsSub, h]

theorem containsSub_append (needle b : List Char) :
    ∀ a : List Char, containsSub needle (a ++ needle ++ b) = true := by
  intro a
  induction a with
  | nil =>
    apply containsSub_of_isPrefixOf
    exact List.isPrefixOf_iff_prefix.mpr ⟨b, by simp⟩
  | cons c a ih =>
    show containsSub needle (c :: (a ++ needle ++ b)) = true
    rw [containsSub, ih, Bool.or_true]

theorem containsSub_exists {needle hay : List Char}
    (h : containsSub needle hay = true) :
    ∃ a b, hay = a ++ needle ++ b := by
  induction hay with
  | nil =>
    simp [containsSub, List.isEmpty_iff] at h
    exact ⟨[], [], by simp [h]⟩
  | cons c t ih =>
    simp only [containsSub, Bool.or_eq_true] at h
    rcases h with h | h
    · rcases List.isPrefixOf_iff_prefix.mp h with ⟨b, hb⟩
      exact ⟨[], b, by simp [← hb]⟩
    · rcases ih h with ⟨a, b, hab⟩
      exact ⟨c :: a, b, by simp [hab]⟩

theorem selectPreferredEndpoint_some (available : List String) (hne : available ≠ []) :
    ∃ u, selectPreferredEndpoint available = some u ∧ u ∈ available := by
  unfold selectPreferredEndpoint
  cases hf : available.find? (fun url => strContains url "s/sfsites/") with
  | some u => exact ⟨u, rfl, List.mem_of_find?_eq_some hf⟩
  | none =>
    cases available with
    | nil => exact absurd rfl hne
    | cons a t => exact ⟨a, rfl, List.mem_cons_self a t⟩

theorem selectAuraEndpoint_of_avail_nil (probe : String → Option String)
    (base : String) (h : checkEndpointsAvailability probe base = []) :
    selectAuraEndpoint probe base = .error .noEndpoint := by
  unfold selectAuraEndpoint
  rw [h]

theorem selectAuraEndpoint_of_avail_cons (probe : String → Option String)
    (base u : String) (rest : List String)
    (h : checkEndpointsAvailability probe base = u :: rest) :
    ∃ w, selectAuraEndpoint probe base = .ok w ∧
      w ∈ checkEndpointsAvailability probe base := by
  rcases selectPreferredEndpoint_some (u :: rest) (by simp) with ⟨w, hw, hmem⟩
  refine ⟨w, ?_, h ▸ hmem⟩
  unfold selectAuraEndpoint
  rw [h]
  show (match selectPreferredEndpoint (u :: rest) with
    | some chosen => (Except.ok chosen : Except AErr String)
    | none => Except.ok u) = Except.ok w
  rw [hw]

/-- C3: for every vector of probe responses, `select_aura_endpoint` fails with
`NoEndpointFoundError` iff the set of available candidates (those whose POST
response body contains `aura:invalidSession`) is empty; otherwise it returns
one of the available endpoint URLs. -/
theorem claim_C3_noEndpoint_iff_no_available (probe : String → Option String)
    (base : String) :
    (selectAuraEndpoint probe base = .error .noEndpoint ↔
      checkEndpointsAvailability probe base = []) ∧
    (checkEndpointsAvailability probe base ≠ [] →
      ∃ u, selectAuraEndpoint probe base = .ok u ∧
        u ∈ checkEndpointsAvailability probe base) := by
  constructor
  · constructor
    · intro he
      cases h : checkEndpointsAvailability probe base with
      | nil => rfl
      | cons u rest =>
        rcases selectAuraEndpoint_of_avail_cons probe base u rest h with ⟨w, hw, _⟩
        rw [hw] at he
        cases he
    · exact selectAuraEndpoint_of_avail_nil probe base
  · intro hne
    cases h : checkEndpointsAvailability probe base with
    | nil => exact absurd h hne
    | cons u rest =>
      simpa [h] using selectAuraEndpoint_of_avail_cons probe base u rest h

/-- Witness for C3 at a concrete probe vector where only `s/sfsites/aura`
answers with the invalid-session signature. -/
theorem claim_C3_noEndpoint_iff_no_available_witness :
    ∃ u, selectAuraEndpoint
        (fun u => if u = "https://acme.my.site.com/s/sfsites/aura"
          then some "we got aura:invalidSession here" else some "404")
        "https://acme.my.site.com" = .ok u ∧
      u ∈ checkEndpointsAvailability
        (fun u => if u = "https://acme.my.site.com/s/sfsites/aura"
          then some "we got aura:invalidSession here" else some "404")
        "https://acme.my.site.com" :=
  (claim_C3_noEndpoint_iff_no_available _ _).2 (by decide)

/-- C2 counterexample: for the base URL `https://x.com/news` (which ends in
`s`), with exactly the candidates `aura` and `sfsites/aura` available, the
code returns the `sfsites/aura` candidate — its full URL contains
`s/sfsites/` via the juxtaposition `news` + `/sfsites/` — although no
available candidate's *path* contains `s/sfsites/`, where the claim requires
the first available candidate `https://x.com/news/aura`. -/
theorem claim_C2_counterexample :
    selectAuraEndpoint
        (fun u => if u = "https://x.com/news/aura" then some "aura:invalidSession"
          else if u = "https://x.com/news/sfsites/aura" then some "aura:invalidSession"
          else some "404")
        "https://x.com/news" = .ok "https://x.com/news/sfsites/aura" ∧
    checkEndpointsAvailability
        (fun u => if u = "https://x.com/news/aura" then some "aura:invalidSession"
          else if u = "https://x.com/news/sfsites/aura" then some "aura:invalidSession"
          else some "404")
        "https://x.com/news" =
      ["https://x.com/news/aura", "https://x.com/news/sfsites/aura"] ∧
    strContains "aura" "s/sfsites/" = false ∧
    strContains "sfsites/aura" "s/sfsites/" = false := by
  exact ⟨rfl, by decide⟩

/-- C2 (amended): the tie-break tests the full candidate URL, not its path:
`select_aura_endpoint` returns the first available candidate whose full URL
(`base ++ "/" ++ path`) contains `s/sfsites/` whenever one exists, and
otherwise the first available candidate in probe order. -/
theorem claim_C2_amended_prefers_first_url_match (probe : String → Option String)
    (base : String) :
    (∀ u, (checkEndpointsAvailability probe base).find?
        (fun url => strContains url "s/sfsites/") = some u →
      selectAuraEndpoint probe base = .ok u) ∧
    (∀ u rest, checkEndpointsAvailability probe base = u :: rest →
      (u :: rest).find? (fun url => strContains url "s/sfsites/") = none →
      selectAuraEndpoint probe base = .ok u) := by
  constructor
  · intro u hf
    cases h : checkEndpointsAvailability probe base with
    | nil => rw [h] at hf; simp at hf
    | cons a t =>
      rw [h] at hf
      have hp : selectPreferredEndpoint (a :: t) = some u := by
        unfold selectPreferredEndpoint
        rw [hf]
      unfold selectAuraEndpoint
      rw [h]
      show (match selectPreferredEndpoint (a :: t) with
        | some chosen => (Except.ok chosen : Except AErr String)
        | none => Except.ok a) = Except.ok u
      rw [hp]
  · intro u rest h hf
    have hp : selectPreferredEndpoint (u :: rest) = some u := by
      unfold selectPreferredEndpoint
      rw [hf]
      rfl
    unfold selectAuraEndpoint
    rw [h]
    show (match selectPreferredEndpoint (u :: rest) with
      | some chosen => (Except.ok chosen : Except AErr String)
      | none => Except.ok u) = Except.ok u
    rw [hp]

/-- Witness for the amended C2 at a probe vector where every candidate is
available: the first URL containing `s/sfsites/` is the `s/sfsites/aura`
candidate. -/
theorem claim_C2_amended_prefers_first_url_match_witness :
    selectAuraEndpoint (fun _ => some "aura:invalidSession") "https://b" =
      .ok "https://b/s/sfsites/aura" :=
  (claim_C2_amended_prefers_first_url_match (fun _ => some "aura:invalidSession")
    "https://b").1 "https://b/s/sfsites/aura" (by decide)

theorem char_toNat_ofNat {n : Nat} (h : n < 55296 ∨ (57343 < n ∧ n < 1114112)) :
    (Char.ofNat n).toNat = n := by
  simp only [Char.ofNat, dif_pos h, Char.ofNatAux, Char.toNat]
  rfl

theorem char_valid_nat (c : Char) :
    c.toNat < 55296 ∨ (57343 < c.toNat ∧ c.toNat < 1114112) := c.valid

theorem char_ne_of_toNat_ne {c d : Char} (h : c.toNat ≠ d.toNat) : c ≠ d :=
  fun he => h (he ▸ rfl)

theorem toNat_hexDigitLC {d : Nat} (h : d < 16) : (hexDigitLC d).toNat = if d < 10 then 48 + d else 87 + d := by
  unfold hexDigitLC
  by_cases h10 : d < 10
  · rw [if_pos h10, if_pos h10, char_toNat_ofNat (by omega)]
  · rw [if_neg h10, if_neg h10, char_toNat_ofNat (by omega)]

theorem toNat_hexDigitUC {d : Nat} (h : d < 16) : (hexDigitUC d).toNat = if d < 10 then 48 + d else 55 + d := by
  unfold hexDigitUC
  by_cases h10 : d < 10
  · rw [if_pos h10, if_pos h10, char_toNat_ofNat (by omega)]
  · rw [if_neg h10, if_neg h10, char_toNat_ofNat (by omega)]

theorem hexVal_hexDigitLC {d : Nat} (h : d < 16) : hexVal (hexDigitLC d) = some d := by
  unfold hexVal
  rw [toNat_hexDigitLC h]
  by_cases h10 : d < 10
  · rw [if_pos h10, if_pos (by omega)]
    congr 1
    omega
  · rw [if_neg h10, if_neg (by omega), if_pos (by omega)]
    congr 1
    omega

theorem hexVal_hexDigitUC {d : Nat} (h : d < 16) : hexVal (hexDigitUC d) = some d := by
  unfold hexVal
  rw [toNat_hexDigitUC h]
  by_cases h10 : d < 10
  · rw [if_pos h10, if_pos (by omega)]
    congr 1
    omega
  · rw [if_neg h10, if_neg (by omega), if_neg (by omega), if_pos (by omega)]
    congr 1
    omega

theorem isDigit_hexDigitLC {d : Nat} (h : d < 10) : isDigit (hexDigitLC d) = true := by
  unfold isDigit
  rw [toNat_hexDigitLC (by omega), if_pos h]
  simp
  omega

theorem natSerF_ne_nil {f n : Nat} (h : 0 < f) : natSerF f n ≠ [] := by
  cases f with
  | zero => omega
  | succ f =>
    unfold natSerF
    by_cases h10 : n < 10
    · simp [h10]
    · simp [h10]

theorem natSerF_all_digits : ∀ f n, n < f → ∀ c ∈ natSerF f n, isDigit c = true := by
  intro f
  induction f with
  | zero => intro n h; omega
  | succ f ih =>
    intro n h c hc
    unfold natSerF at hc
    by_cases h10 : n < 10
    · rw [if_pos h10] at hc
      simp at hc
      subst hc
      exact isDigit_hexDigitLC h10
    · rw [if_neg h10] at hc
      rcases List.mem_append.mp hc with hm | hm
      · exact ih (n / 10) (by omega) c hm
      · simp at hm
        subst hm
        exact isDigit_hexDigitLC (by omega)

theorem natSerF_head_ne_zero : ∀ f n, n < f → 1 ≤ n →
    (natSerF f n).head? ≠ some '0' := by
  intro f
  induction f with
  | zero => intro n h; omega
  | succ f ih =>
    intro n h h1
    unfold natSerF
    by_cases h10 : n < 10
    · rw [if_pos h10]
      intro hc
      simp at hc
      have : (hexDigitLC n).toNat = 48 := by rw [hc]; rfl
      rw [toNat_hexDigitLC (by omega), if_pos h10] at this
      omega
    · rw [if_neg h10]
      have hne := natSerF_ne_nil (f := f) (n := n / 10) (by omega)
      cases hh : natSerF f (n / 10) with
      | nil => exact absurd hh hne
      | cons a t =>
        have := ih (n / 10) (by omega) (by omega)
        rw [hh] at this
        simpa using this

theorem foldl_natSerF : ∀ f n a, n < f →
    List.foldl (fun x c => 10 * x + (c.toNat - 48)) a (natSerF f n) =
      a * 10 ^ (natSerF f n).length + n := by
  intro f
  induction f with
  | zero => intro n a h; omega
  | succ f ih =>
    intro n a h
    unfold natSerF
    by_cases h10 : n < 10
    · rw [if_pos h10]
      simp [toNat_hexDigitLC (by omega : n < 16), if_pos h10]
      omega
    · rw [if_neg h10]
      rw [List.foldl_append, ih (n / 10) a (by omega)]
      simp [toNat_hexDigitLC (show n % 10 < 16 by omega), if_pos (show n % 10 < 10 by omega)]
      ring_nf
      omega

theorem digitsVal_natSer (n : Nat) : digitsVal (natSer n) = n := by
  unfold digitsVal natSer
  rw [foldl_natSerF (n + 1) n 0 (by omega)]
  simp

theorem takeWhile_append_all {p : Char → Bool} :
    ∀ a r : List Char, (∀ x ∈ a, p x = true) →
      (a ++ r).takeWhile p = a ++ r.takeWhile p := by
  intro a r ha
  induction a with
  | nil => simp
  | cons c t ih =>
    have hc := ha c (by simp)
    simp only [List.cons_append, List.takeWhile_cons, hc]
    simp [ih (fun x hx => ha x (by simp [hx]))]

theorem dropWhile_append_all {p : Char → Bool} :
    ∀ a r : List Char, (∀ x ∈ a, p x = true) →
      (a ++ r).dropWhile p = r.dropWhile p := by
  intro a r ha
  induction a with
  | nil => simp
  | cons c t ih =>
    have hc := ha c (by simp)
    simp only [List.cons_append, List.dropWhile_cons, hc]
    exact ih (fun x hx => ha x (by simp [hx]))

theorem takeWhile_noDigitHead {r : List Char} (h : noDigitHead r) :
    r.takeWhile isDigit = [] := by
  cases r with
  | nil => rfl
  | cons c t =>
    unfold noDigitHead at h
    simp [List.takeWhile_cons, h]

theorem dropWhile_noDigitHead {r : List Char} (h : noDigitHead r) :
    r.dropWhile isDigit = r := by
  cases r with
  | nil => rfl
  | cons c t =>
    unfold noDigitHead at h
    simp [List.dropWhile_cons, h]

theorem skipWs_cons {c : Char} {t : List Char} (h : isJsonWs c = false) :
    skipWs (c :: t) = c :: t := by
  simp [skipWs, List.dropWhile_cons, h]

theorem isDigit_facts {c : Char} (h : isDigit c = true) :
    c ≠ 'n' ∧ c ≠ 't' ∧ c ≠ 'f' ∧ c ≠ '"' ∧ c ≠ '[' ∧ c ≠ '{' ∧ c ≠ '-' ∧
      isJsonWs c = false ∧ c ≠ ']' ∧ c ≠ '}' := by
  simp only [isDigit, decide_eq_true_eq] at h
  refine ⟨?_, ?_, ?_, ?_, ?_, ?_, ?_, ?_, ?_, ?_⟩
  · exact char_ne_of_toNat_ne (by intro hc; rw [show ('n').toNat = 110 from rfl] at hc; omega)
  · exact char_ne_of_toNat_ne (by intro hc; rw [show ('t').toNat = 116 from rfl] at hc; omega)
  · exact char_ne_of_toNat_ne (by intro hc; rw [show ('f').toNat = 102 from rfl] at hc; omega)
  · exact char_ne_of_toNat_ne (by intro hc; rw [show ('"').toNat = 34 from rfl] at hc; omega)
  · exact char_ne_of_toNat_ne (by intro hc; rw [show ('[').toNat = 91 from rfl] at hc; omega)
  · exact char_ne_of_toNat_ne (by intro hc; rw [show ('{').toNat = 123 from rfl] at hc; omega)
  · exact char_ne_of_toNat_ne (by intro hc; rw [show ('-').toNat = 45 from rfl] at hc; omega)
  · simp only [isJsonWs]
    rw [decide_eq_false_iff_not]
    rintro (rfl | rfl | rfl | rfl) <;> exact absurd h (by decide)
  · exact char_ne_of_toNat_ne (by intro hc; rw [show (']').toNat = 93 from rfl] at hc; omega)
  · exact char_ne_of_toNat_ne (by intro hc; rw [show ('}').toNat = 125 from rfl] at hc; omega)

theorem escStr_cons (c : Char) (cs : List Char) :
    escStr (c :: cs) = escChar c ++ escStr cs := by
  simp [escStr]

theorem escChar_length_pos (c : Char) : 0 < (escChar c).length := by
  unfold escChar
  split_ifs <;> simp [hex4]

theorem escStr_length_ge : ∀ cs : List Char, cs.length ≤ (escStr cs).length := by
  intro cs
  induction cs with
  | nil => simp [escStr]
  | cons c t ih =>
    rw [escStr_cons]
    have := escChar_length_pos c
    simp only [List.length_append, List.length_cons]
    omega

theorem parseU_bmp {n : Nat} (rest : List Char) (hlt : n < 65536)
    (hns : ¬(55296 ≤ n ∧ n ≤ 57343)) :
    parseU (hex4 n ++ rest) = some (Char.ofNat n, rest) := by
  have e1 : hexVal (hexDigitLC (n / 4096 % 16)) = some (n / 4096 % 16) :=
    hexVal_hexDigitLC (by omega)
  have e2 : hexVal (hexDigitLC (n / 256 % 16)) = some (n / 256 % 16) :=
    hexVal_hexDigitLC (by omega)
  have e3 : hexVal (hexDigitLC (n / 16 % 16)) = some (n / 16 % 16) :=
    hexVal_hexDigitLC (by omega)
  have e4 : hexVal (hexDigitLC (n % 16)) = some (n % 16) :=
    hexVal_hexDigitLC (by omega)
  have hval : ((n / 4096 % 16 * 16 + n / 256 % 16) * 16 + n / 16 % 16) * 16 + n % 16 = n := by
    omega
  simp only [hex4, List.cons_append, List.nil_append, parseU, hex4Val, e1, e2, e3, e4, hval]
  rw [if_neg (by omega : ¬(55296 ≤ n ∧ n ≤ 56319))]
  rw [if_neg (by omega : ¬(56320 ≤ n ∧ n ≤ 57343))]

theorem parseU_pair {hi lo : Nat} (rest : List Char)
    (hhi : 55296 ≤ hi ∧ hi ≤ 56319) (hlo : 56320 ≤ lo ∧ lo ≤ 57343) :
    parseU (hex4 hi ++ '\\' :: 'u' :: (hex4 lo ++ rest)) =
      some (Char.ofNat (65536 + (hi - 55296) * 1024 + (lo - 56320)), rest) := by
  have e1 : hexVal (hexDigitLC (hi / 4096 % 16)) = some (hi / 4096 % 16) :=
    hexVal_hexDigitLC (by omega)
  have e2 : hexVal (hexDigitLC (hi / 256 % 16)) = some (hi / 256 % 16) :=
    hexVal_hexDigitLC (by omega)
  have e3 : hexVal (hexDigitLC (hi / 16 % 16)) = some (hi / 16 % 16) :=
    hexVal_hexDigitLC (by omega)
  have e4 : hexVal (hexDigitLC (hi % 16)) = some (hi % 16) :=
    hexVal_hexDigitLC (by omega)
  have g1 : hexVal (hexDigitLC (lo / 4096 % 16)) = some (lo / 4096 % 16) :=
    hexVal_hexDigitLC (by omega)
  have g2 : hexVal (hexDigitLC (lo / 256 % 16)) = some (lo / 256 % 16) :=
    hexVal_hexDigitLC (by omega)
  have g3 : hexVal (hexDigitLC (lo / 16 % 16)) = some (lo / 16 % 16) :=
    hexVal_hexDigitLC (by omega)
  have g4 : hexVal (hexDigitLC (lo % 16)) = some (lo % 16) :=
    hexVal_hexDigitLC (by omega)
  have hvalhi : ((hi / 4096 % 16 * 16 + hi / 256 % 16) * 16 + hi / 16 % 16) * 16 + hi % 16 =
      hi := by omega
  have hvallo : ((lo / 4096 % 16 * 16 + lo / 256 % 16) * 16 + lo / 16 % 16) * 16 + lo % 16 =
      lo := by omega
  simp only [hex4, List.cons_append, List.nil_append, List.append_assoc, parseU,
    hex4Val, e1, e2, e3, e4, hvalhi]
  rw [if_pos (by omega : 55296 ≤ hi ∧ hi ≤ 56319)]
  simp only [g1, g2, g3, g4, hvallo]
  rw [if_pos (by omega : 56320 ≤ lo ∧ lo ≤ 57343)]

theorem parseU_astral {n : Nat} (rest : List Char) (hge : 65536 ≤ n)
    (hlt : n < 1114112) :
    parseU (hex4 (55296 + (n - 65536) / 1024) ++
      '\\' :: 'u' :: (hex4 (56320 + (n - 65536) % 1024) ++ rest)) =
      some (Char.ofNat n, rest) := by
  rw [parseU_pair rest
    (by omega : 55296 ≤ 55296 + (n - 65536) / 1024 ∧ 55296 + (n - 65536) / 1024 ≤ 56319)
    (by omega : 56320 ≤ 56320 + (n - 65536) % 1024 ∧ 56320 + (n - 65536) % 1024 ≤ 57343)]
  have : 65536 + (55296 + (n - 65536) / 1024 - 55296) * 1024 +
      (56320 + (n - 65536) % 1024 - 56320) = n := by omega
  rw [this]

theorem parseStrL_lit {c : Char} (f : Nat) (t : List Char) (h1 : c ≠ '"')
    (h2 : c ≠ '\\') (h3 : ¬c.toNat < 32) :
    parseStrL (f + 1) (c :: t) = (parseStrL f t).map (fun p => (c :: p.1, p.2)) := by
  simp only [parseStrL]
  rw [if_neg h1, if_neg h2, if_neg h3]

theorem parseEsc_u (f : Nat) (t2 : List Char) :
    parseEsc (f + 1) ('u' :: t2) =
      match parseU t2 with
      | some (ch, t3) => (parseStrL f t3).map (fun p => (ch :: p.1, p.2))
      | none => none := rfl

theorem parseStrL_bs (f : Nat) (t : List Char) :
    parseStrL (f + 1) ('\\' :: t) = parseEsc f t := rfl

theorem parseStrL_astral_aux {c : Char} (f2 : Nat) {X : List Char} {ys rest : List Char}
    (hge : 65536 ≤ c.toNat) (hlt : c.toNat < 1114112)
    (hrec : parseStrL f2 X = some (ys, rest)) :
    parseStrL (f2 + 1 + 1)
      (('\\' :: 'u' :: hex4 (55296 + (c.toNat - 65536) / 1024) ++
        '\\' :: 'u' :: hex4 (56320 + (c.toNat - 65536) % 1024)) ++ X) =
      some (c :: ys, rest) := by
  simp only [List.cons_append, List.append_assoc]
  rw [parseStrL_bs (f2 + 1), parseEsc_u f2,
    parseU_astral (n := c.toNat) _ (by omega) (by omega)]
  show (parseStrL f2 X).map (fun p => (Char.ofNat c.toNat :: p.1, p.2)) = some (c :: ys, rest)
  rw [hrec, Char.ofNat_toNat]
  rfl

theorem parse_escStr : ∀ cs : List Char, ∀ f rest, (escStr cs).length < f →
    parseStrL f (escStr cs ++ '"' :: rest) = some (cs, rest) := by
  intro cs
  induction cs with
  | nil =>
    intro f rest h
    cases f with
    | zero => simp [escStr] at h
    | succ f => rfl
  | cons c cs ih =>
    intro f rest h
    rw [escStr_cons] at h ⊢
    have hlen1 := escChar_length_pos c
    unfold escChar at h ⊢
    by_cases h1 : c = '"'
    · rw [if_pos h1] at h ⊢
      simp only [List.length_append, List.length_cons, List.length_nil] at h
      obtain ⟨f2, rfl⟩ : ∃ f2, f = f2 + 2 := ⟨f - 2, by omega⟩
      subst h1
      show parseEsc (f2 + 1) ('"' :: (escStr cs ++ '"' :: rest)) = some ('"' :: cs, rest)
      show (parseStrL f2 (escStr cs ++ '"' :: rest)).map (fun p => ('"' :: p.1, p.2)) =
        some ('"' :: cs, rest)
      rw [ih f2 rest (by omega)]
      rfl
    · rw [if_neg h1] at h ⊢
      by_cases h2 : c = '\\'
      · rw [if_pos h2] at h ⊢
        simp only [List.length_append, List.length_cons, List.length_nil] at h
        obtain ⟨f2, rfl⟩ : ∃ f2, f = f2 + 2 := ⟨f - 2, by omega⟩
        subst h2
        show (parseStrL f2 (escStr cs ++ '"' :: rest)).map (fun p => ('\\' :: p.1, p.2)) =
          some ('\\' :: cs, rest)
        rw [ih f2 rest (by omega)]
        rfl
      · rw [if_neg h2] at h ⊢
        by_cases h3 : c.toNat < 32
        · rw [if_pos h3] at h ⊢
          simp only [List.length_append, List.length_cons, hex4, List.length_nil] at h
          obtain ⟨f2, rfl⟩ : ∃ f2, f = f2 + 2 := ⟨f - 2, by omega⟩
          show parseEsc (f2 + 1) ('u' :: (hex4 c.toNat ++ (escStr cs ++ '"' :: rest))) =
            some (c :: cs, rest)
          rw [parseEsc_u, parseU_bmp _ (by omega) (by omega)]
          show (parseStrL f2 (escStr cs ++ '"' :: rest)).map
            (fun p => (Char.ofNat c.toNat :: p.1, p.2)) = some (c :: cs, rest)
          rw [ih f2 rest (by omega), Char.ofNat_toNat]
          rfl
        · rw [if_neg h3] at h ⊢
          by_cases h4 : c.toNat < 128
          · rw [if_pos h4] at h ⊢
            simp only [List.length_append, List.length_cons, List.length_nil] at h
            obtain ⟨f2, rfl⟩ : ∃ f2, f = f2 + 1 := ⟨f - 1, by omega⟩
            simp only [List.cons_append, List.nil_append]
            rw [parseStrL_lit f2 _ h1 h2 h3, ih f2 rest (by omega)]
            rfl
          · rw [if_neg h4] at h ⊢
            have hv := char_valid_nat c
            by_cases h5 : c.toNat < 65536
            · rw [if_pos h5] at h ⊢
              simp only [List.length_append, List.length_cons, hex4, List.length_nil] at h
              obtain ⟨f2, rfl⟩ : ∃ f2, f = f2 + 2 := ⟨f - 2, by omega⟩
              show parseEsc (f2 + 1) ('u' :: (hex4 c.toNat ++ (escStr cs ++ '"' :: rest))) =
                some (c :: cs, rest)
              rw [parseEsc_u, parseU_bmp _ (by omega) (by omega)]
              show (parseStrL f2 (escStr cs ++ '"' :: rest)).map
                (fun p => (Char.ofNat c.toNat :: p.1, p.2)) = some (c :: cs, rest)
              rw [ih f2 rest (by omega), Char.ofNat_toNat]
              rfl
            · rw [if_neg h5] at h ⊢
              simp only [List.length_append, List.length_cons, hex4, List.length_nil] at h
              obtain ⟨f2, rfl⟩ : ∃ f2, f = f2 + 1 + 1 := ⟨f - 2, by omega⟩
              exact parseStrL_astral_aux f2 (by omega) (by omega) (ih f2 rest (by omega))

theorem natSer_ne_nil (n : Nat) : natSer n ≠ [] := natSerF_ne_nil (by omega)

theorem natSer_all_digits (n : Nat) : ∀ c ∈ natSer n, isDigit c = true :=
  natSerF_all_digits (n + 1) n (by omega)

theorem serItems_cons_ex (x : Jval) (xs : List Jval) :
    ∃ tl, serItems (x :: xs) = serVal x ++ tl := by
  cases xs with
  | nil => exact ⟨[], by simp [serItems]⟩
  | cons y t => exact ⟨',' :: serItems (y :: t), rfl⟩

theorem serFields_cons_ex (k : String) (v : Jval) (fs : List (String × Jval)) :
    ∃ tl, serFields ((k, v) :: fs) =
      '"' :: (escStr k.data ++ ('"' :: ':' :: (serVal v ++ tl))) := by
  cases fs with
  | nil => exact ⟨[], by simp [serFields]⟩
  | cons g t => exact ⟨',' :: serFields (g :: t), by cases g with | mk k2 v2 => simp [serFields]⟩

theorem serVal_head_facts (v : Jval) :
    ∃ h t, serVal v = h :: t ∧ isJsonWs h = false ∧ h ≠ ']' ∧ h ≠ '}' := by
  cases v with
  | null => exact ⟨'n', _, rfl, by decide⟩
  | bool b =>
    cases b with
    | true => exact ⟨'t', _, rfl, by decide⟩
    | false => exact ⟨'f', _, rfl, by decide⟩
  | num n =>
    by_cases hn : n < 0
    · refine ⟨'-', natSer n.natAbs, ?_, by decide, by decide, by decide⟩
      simp [serVal, if_pos hn]
    · cases hns : natSer n.toNat with
      | nil => exact absurd hns (natSer_ne_nil _)
      | cons d t =>
        have hd : isDigit d = true := natSer_all_digits n.toNat d (by rw [hns]; simp)
        have hf := isDigit_facts hd
        refine ⟨d, t, ?_, hf.2.2.2.2.2.2.2.1, hf.2.2.2.2.2.2.2.2.1, hf.2.2.2.2.2.2.2.2.2⟩
        simp [serVal, if_neg hn, hns]
  | str s => exact ⟨'"', _, rfl, by decide⟩
  | arr xs => exact ⟨'[', _, rfl, by decide⟩
  | obj fs => exact ⟨'{', _, rfl, by decide⟩

theorem noDigitHead_cons {c : Char} (t : List Char) (h : isDigit c = false) :
    noDigitHead (c :: t) := h

theorem parseV_quote (f : Nat) (t : List Char) :
    parseV (f + 1) ('"' :: t) =
      (parseStrL f t).map (fun p => (.str ⟨p.1⟩, p.2)) := rfl

theorem parseV_lbrack (f : Nat) (t : List Char) :
    parseV (f + 1) ('[' :: t) =
      (match skipWs t with
      | [] => none
      | c2 :: t2 =>
        if c2 = ']' then some (.arr [], t2)
        else (parseElems f (c2 :: t2)).map (fun p => (.arr p.1, p.2))) := rfl

theorem parseV_lbrace (f : Nat) (t : List Char) :
    parseV (f + 1) ('{' :: t) =
      (match skipWs t with
      | [] => none
      | c2 :: t2 =>
        if c2 = '}' then some (.obj [], t2)
        else (parseFields f (c2 :: t2)).map (fun p => (.obj p.1, p.2))) := rfl

theorem parseV_dash (f : Nat) (t : List Char) :
    parseV (f + 1) ('-' :: t) =
      (let ds := t.takeWhile isDigit
      if ds.isEmpty then none
      else if ds.head? = some '0' ∧ ds.length ≠ 1 then none
      else some (.num (-(digitsVal ds : Int)), t.dropWhile isDigit)) := rfl

theorem parse_digits_run (m : Nat) (rest : List Char) (hrest : noDigitHead rest) :
    (natSer m ++ rest).takeWhile isDigit = natSer m ∧
    (natSer m ++ rest).dropWhile isDigit = rest ∧
    (natSer m).isEmpty = false ∧
    ¬((natSer m).head? = some '0' ∧ (natSer m).length ≠ 1) ∧
    digitsVal (natSer m) = m := by
  refine ⟨?_, ?_, ?_, ?_, digitsVal_natSer m⟩
  · rw [takeWhile_append_all _ _ (natSer_all_digits _), takeWhile_noDigitHead hrest,
      List.append_nil]
  · rw [dropWhile_append_all _ _ (natSer_all_digits _), dropWhile_noDigitHead hrest]
  · cases hns : natSer m with
    | nil => exact absurd hns (natSer_ne_nil _)
    | cons d t => rfl
  · by_cases hm : m = 0
    · subst hm
      rw [show natSer 0 = ['0'] from rfl]
      rintro ⟨-, hlen⟩
      exact hlen rfl
    · rintro ⟨hhead, -⟩
      exact natSerF_head_ne_zero (m + 1) m (by omega) (by omega) hhead

theorem parse_ser : ∀ f : Nat,
    (∀ (v : Jval) (rest : List Char), (serVal v).length < f → noDigitHead rest →
      parseV f (serVal v ++ rest) = some (v, rest)) ∧
    (∀ (x : Jval) (xs : List Jval) (rest : List Char),
      (serItems (x :: xs)).length + 1 < f →
      parseElems f (serItems (x :: xs) ++ ']' :: rest) = some (x :: xs, rest)) ∧
    (∀ (k : String) (v : Jval) (fs : List (String × Jval)) (rest : List Char),
      (serFields ((k, v) :: fs)).length + 1 < f →
      parseFields f (serFields ((k, v) :: fs) ++ '}' :: rest) = some ((k, v) :: fs, rest)) := by
  intro f
  induction f with
  | zero =>
    refine ⟨fun v rest h _ => absurd h (by omega), fun x xs rest h => absurd h (by omega),
      fun k v fs rest h => absurd h (by omega)⟩
  | succ f ih =>
    obtain ⟨ihV, ihE, ihF⟩ := ih
    refine ⟨?_, ?_, ?_⟩
    · intro v rest hlen hrest
      cases v with
      | null => rfl
      | bool b => cases b <;> rfl
      | num n =>
        by_cases hn : n < 0
        · have hser : serVal (.num n) = '-' :: natSer n.natAbs := by
            simp [serVal, if_pos hn]
          rw [hser]
          rw [List.cons_append, parseV_dash]
          obtain ⟨htw, hdw, hemp, hzero, hdv⟩ := parse_digits_run n.natAbs rest hrest
          simp only [htw, hdw, hemp, hdv]
          rw [if_neg (by simp), if_neg hzero]
          have hval : (-(n.natAbs : Int)) = n := by omega
          rw [hval]
        · have hser : serVal (.num n) = natSer n.toNat := by
            simp [serVal, if_neg hn]
          rw [hser]
          obtain ⟨htw, hdw, hemp, hzero, hdv⟩ := parse_digits_run n.toNat rest hrest
          cases hns : natSer n.toNat with
          | nil => exact absurd hns (natSer_ne_nil _)
          | cons d dt =>
            have hd : isDigit d = true := natSer_all_digits n.toNat d (by rw [hns]; simp)
            have hf2 := isDigit_facts hd
            rw [List.cons_append, parseV,
              skipWs_cons hf2.2.2.2.2.2.2.2.1]
            simp only [if_neg hf2.1, if_neg hf2.2.1, if_neg hf2.2.2.1, if_neg hf2.2.2.2.1,
              if_neg hf2.2.2.2.2.1, if_neg hf2.2.2.2.2.2.1, if_neg hf2.2.2.2.2.2.2.1,
              if_pos hd]
            rw [← List.cons_append, ← hns]
            simp only [htw, hdw, hdv]
            rw [if_neg hzero]
            have hval : ((n.toNat : Nat) : Int) = n := by omega
            rw [hval]
      | str s =>
        have hser : serVal (.str s) = '"' :: (escStr s.data ++ ['"']) := by
          simp [serVal]
        rw [hser] at hlen ⊢
        simp only [List.length_cons, List.length_append, List.length_singleton] at hlen
        rw [List.cons_append, List.append_assoc, List.singleton_append, parseV_quote,
          parse_escStr s.data f rest (by omega)]
        rfl
      | arr xs =>
        cases xs with
        | nil => rfl
        | cons x xs' =>
          have hser : serVal (.arr (x :: xs')) = '[' :: (serItems (x :: xs') ++ [']']) := by
            simp [serVal]
          rw [hser] at hlen ⊢
          simp only [List.length_cons, List.length_append, List.length_singleton] at hlen
          rw [List.cons_append, List.append_assoc, List.singleton_append, parseV_lbrack]
          obtain ⟨h0, t0, hh, hws, hne1, hne2⟩ := serVal_head_facts x
          obtain ⟨tl, htl⟩ := serItems_cons_ex x xs'
          have hshape : serItems (x :: xs') ++ ']' :: rest = h0 :: (t0 ++ (tl ++ ']' :: rest)) := by
            rw [htl, hh]
            simp only [List.cons_append, List.append_assoc]
          rw [hshape, skipWs_cons hws]
          simp only [if_neg hne1]
          rw [← hshape, ihE x xs' rest (by omega)]
          rfl
      | obj fs =>
        cases fs with
        | nil => rfl
        | cons kv fs' =>
          obtain ⟨k, v⟩ := kv
          have hser : serVal (.obj ((k, v) :: fs')) =
              '{' :: (serFields ((k, v) :: fs') ++ ['}']) := by
            simp [serVal]
          rw [hser] at hlen ⊢
          simp only [List.length_cons, List.length_append, List.length_singleton] at hlen
          rw [List.cons_append, List.append_assoc, List.singleton_append, parseV_lbrace]
          obtain ⟨tl, htl⟩ := serFields_cons_ex k v fs'
          have hshape : serFields ((k, v) :: fs') ++ '}' :: rest =
              '"' :: ((escStr k.data ++ ('"' :: ':' :: (serVal v ++ tl))) ++ '}' :: rest) := by
            rw [htl]
            simp only [List.cons_append, List.append_assoc]
          rw [hshape, skipWs_cons (by decide)]
          simp only [if_neg (by decide : ¬('"' = '}'))]
          rw [← hshape, ihF k v fs' rest (by omega)]
          rfl
    · intro x xs rest hlen
      cases xs with
      | nil =>
        have hsi : serItems [x] = serVal x := by simp [serItems]
        rw [hsi] at hlen ⊢
        rw [parseElems, ihV x (']' :: rest) (by omega) (noDigitHead_cons _ (by decide))]
        rfl
      | cons y ys =>
        have hsi : serItems (x :: y :: ys) = serVal x ++ ',' :: serItems (y :: ys) := by
          simp [serItems]
        rw [hsi] at hlen ⊢
        simp only [List.length_append, List.length_cons] at hlen
        rw [List.append_assoc, List.cons_append, parseElems,
          ihV x (',' :: (serItems (y :: ys) ++ ']' :: rest)) (by omega)
            (noDigitHead_cons _ (by decide))]
        show (match parseElems f (serItems (y :: ys) ++ ']' :: rest) with
          | none => none
          | some (vs, r3) => some ((x :: vs : List Jval), r3)) = some (x :: y :: ys, rest)
        rw [ihE y ys rest (by omega)]
    · intro k v fs rest hlen
      cases fs with
      | nil =>
        have hsf : serFields [(k, v)] = '"' :: (escStr k.data ++ ('"' :: ':' :: serVal v)) := by
          simp [serFields]
        rw [hsf] at hlen ⊢
        simp only [List.length_cons, List.length_append] at hlen
        rw [List.cons_append, List.append_assoc, parseFields]
        rw [show ('"' :: ':' :: serVal v) ++ '}' :: rest =
          '"' :: ':' :: (serVal v ++ '}' :: rest) by simp]
        rw [skipWs_cons (by decide)]
        show (match parseStrL f (escStr k.data ++ '"' :: (':' :: (serVal v ++ '}' :: rest))) with
          | none => none
          | some (kk, r) =>
            match skipWs r with
            | ':' :: r2 =>
              match parseV f r2 with
              | none => none
              | some (vv, r3) =>
                match skipWs r3 with
                | ',' :: r4 =>
                  match parseFields f r4 with
                  | none => none
                  | some (gs, r5) => some ((⟨kk⟩, vv) :: gs, r5)
                | '}' :: r4 => some ([(⟨kk⟩, vv)], r4)
                | _ => none
            | _ => none) = some ([(k, v)], rest)
        rw [parse_escStr k.data f _ (by omega)]
        show (match parseV f (serVal v ++ '}' :: rest) with
          | none => none
          | some (vv, r3) =>
            match skipWs r3 with
            | ',' :: r4 =>
              match parseFields f r4 with
              | none => none
              | some (gs, r5) => some ((⟨k.data⟩, vv) :: gs, r5)
            | '}' :: r4 => some ([(⟨k.data⟩, vv)], r4)
            | _ => none) = some ([(k, v)], rest)
        rw [ihV v ('}' :: rest) (by omega) (noDigitHead_cons _ (by decide))]
        rfl
      | cons kv2 fs2 =>
        obtain ⟨k2, v2⟩ := kv2
        have hsf : serFields ((k, v) :: (k2, v2) :: fs2) =
            ('"' :: (escStr k.data ++ ('"' :: ':' :: serVal v))) ++
              ',' :: serFields ((k2, v2) :: fs2) := by
          simp [serFields]
        rw [hsf] at hlen ⊢
        simp only [List.length_cons, List.length_append] at hlen
        rw [List.append_assoc, List.cons_append, List.cons_append, List.append_assoc,
          parseFields]
        rw [show ('"' :: ':' :: serVal v) ++ (',' :: (serFields ((k2, v2) :: fs2) ++ '}' :: rest)) =
          '"' :: ':' :: (serVal v ++ ',' :: (serFields ((k2, v2) :: fs2) ++ '}' :: rest)) by simp]
        rw [skipWs_cons (by decide)]
        show (match parseStrL f (escStr k.data ++ '"' ::
            (':' :: (serVal v ++ ',' :: (serFields ((k2, v2) :: fs2) ++ '}' :: rest)))) with
          | none => none
          | some (kk, r) =>
            match skipWs r with
            | ':' :: r2 =>
              match parseV f r2 with
              | none => none
              | some (vv, r3) =>
                match skipWs r3 with
                | ',' :: r4 =>
                  match parseFields f r4 with
                  | none => none
                  | some (gs, r5) => some ((⟨kk⟩, vv) :: gs, r5)
                | '}' :: r4 => some ([(⟨kk⟩, vv)], r4)
                | _ => none
            | _ => none) = some ((k, v) :: (k2, v2) :: fs2, rest)
        rw [parse_escStr k.data f _ (by omega)]
        show (match parseV f (serVal v ++ ',' :: (serFields ((k2, v2) :: fs2) ++ '}' :: rest)) with
          | none => none
          | some (vv, r3) =>
            match skipWs r3 with
            | ',' :: r4 =>
              match parseFields f r4 with
              | none => none
              | some (gs, r5) => some ((⟨k.data⟩, vv) :: gs, r5)
            | '}' :: r4 => some ([(⟨k.data⟩, vv)], r4)
            | _ => none) = some ((k, v) :: (k2, v2) :: fs2, rest)
        rw [ihV v (',' :: (serFields ((k2, v2) :: fs2) ++ '}' :: rest)) (by omega)
          (noDigitHead_cons _ (by decide))]
        show (match parseFields f (serFields ((k2, v2) :: fs2) ++ '}' :: rest) with
          | none => none
          | some (gs, r5) => some (((⟨k.data⟩, v) :: gs : List (String × Jval)), r5)) =
          some ((k, v) :: (k2, v2) :: fs2, rest)
        rw [ihF k2 v2 fs2 rest (by omega)]

theorem jsonLoads_dumps (v : Jval) : jsonLoads (jsonDumps v) = some v := by
  unfold jsonLoads jsonDumps
  have h := (parse_ser ((serVal v).length + 1)).1 v [] (by omega) trivial
  rw [List.append_nil] at h
  rw [show (String.mk (serVal v)).data = serVal v from rfl, h]
  rfl

theorem isSafeUrl_ne_pct {c : Char} (h : isSafeUrl c = true) : c ≠ '%' := by
  intro he
  subst he
  exact absurd h (by decide)

theorem utf8Bytes_ascii {c : Char} (h : c.toNat < 128) : utf8Bytes c = [c.toNat] := by
  simp [utf8Bytes, h]

theorem quoteChar_safe {c : Char} (h : isSafeUrl c = true) : quoteChar c = [c] := by
  simp [quoteChar, h]

theorem quoteChar_unsafe_ascii {c : Char} (hs : isSafeUrl c = false) (ha : c.toNat < 128) :
    quoteChar c = ['%', hexDigitUC (c.toNat / 16 % 16), hexDigitUC (c.toNat % 16)] := by
  simp [quoteChar, hs, utf8Bytes_ascii ha, pctEnc]

theorem quoteL_cons (c : Char) (t : List Char) :
    quoteL (c :: t) = quoteChar c ++ quoteL t := by
  simp [quoteL]

theorem pctRunF_cons (f : Nat) (c : Char) (t : List Char) :
    pctRunF (f + 1) (c :: t) =
      (if c = '%' then
        match pctHex t with
        | some (b, t2) => (b :: (pctRunF f t2).1, (pctRunF f t2).2)
        | none => ([], c :: t)
      else ([], c :: t)) := rfl

theorem quoteL_ne_lt (cs : List Char) : cs.length ≤ (quoteL cs).length := by
  induction cs with
  | nil => simp [quoteL]
  | cons c t ih =>
    rw [quoteL_cons]
    have : 0 < (quoteChar c).length := by
      unfold quoteChar
      by_cases hs : isSafeUrl c = true
      · rw [if_pos hs]; simp
      · rw [if_neg hs]
        simp only [utf8Bytes]
        split_ifs <;> simp [pctEnc]
    simp only [List.length_append, List.length_cons]
    omega

theorem pctHex_hex {a b : Nat} (ha : a < 16) (hb : b < 16) (t : List Char) :
    pctHex (hexDigitUC a :: hexDigitUC b :: t) = some (16 * a + b, t) := by
  show (match hexVal (hexDigitUC a), hexVal (hexDigitUC b) with
    | some a2, some b2 => some (16 * a2 + b2, t)
    | _, _ => none) = some (16 * a + b, t)
  rw [hexVal_hexDigitUC ha, hexVal_hexDigitUC hb]

theorem pctRunF_quoteL : ∀ (f : Nat) (cs : List Char), (quoteL cs).length < f →
    (∀ c ∈ cs, c.toNat < 128) →
    pctRunF f (quoteL cs) = ((cs.takeWhile (fun c => !isSafeUrl c)).map Char.toNat,
      quoteL (cs.dropWhile (fun c => !isSafeUrl c))) := by
  intro f
  induction f with
  | zero => intro cs h _; omega
  | succ f ih =>
    intro cs hlen ha
    cases cs with
    | nil => rfl
    | cons c t =>
      have hac : c.toNat < 128 := ha c (by simp)
      have hat : ∀ x ∈ t, x.toNat < 128 := fun x hx => ha x (by simp [hx])
      by_cases hs : isSafeUrl c = true
      · rw [quoteL_cons, quoteChar_safe hs, List.cons_append, List.nil_append,
          pctRunF_cons, if_neg (isSafeUrl_ne_pct hs)]
        simp [List.takeWhile_cons, List.dropWhile_cons, hs, quoteL_cons, quoteChar_safe hs]
      · have hs' : isSafeUrl c = false := by
          cases hcs : isSafeUrl c with
          | true => exact absurd hcs hs
          | false => rfl
        rw [quoteL_cons, quoteChar_unsafe_ascii hs' hac] at hlen ⊢
        rw [show (['%', hexDigitUC (c.toNat / 16 % 16), hexDigitUC (c.toNat % 16)] ++ quoteL t) =
          '%' :: hexDigitUC (c.toNat / 16 % 16) :: hexDigitUC (c.toNat % 16) :: quoteL t
          by simp] at hlen ⊢
        rw [pctRunF_cons, if_pos rfl]
        rw [pctHex_hex (show c.toNat / 16 % 16 < 16 by omega)
          (show c.toNat % 16 < 16 by omega) (quoteL t)]
        have hb : 16 * (c.toNat / 16 % 16) + c.toNat % 16 = c.toNat := by omega
        simp only [List.length_cons] at hlen
        show ((16 * (c.toNat / 16 % 16) + c.toNat % 16) :: (pctRunF f (quoteL t)).1,
          (pctRunF f (quoteL t)).2) =
          (((c :: t).takeWhile (fun c => !isSafeUrl c)).map Char.toNat,
            quoteL ((c :: t).dropWhile (fun c => !isSafeUrl c)))
        rw [ih t (by omega) hat]
        simp [List.takeWhile_cons, List.dropWhile_cons, hs', hb]

theorem pctRun_quoteL (cs : List Char) (ha : ∀ c ∈ cs, c.toNat < 128) :
    pctRun (quoteL cs) = ((cs.takeWhile (fun c => !isSafeUrl c)).map Char.toNat,
      quoteL (cs.dropWhile (fun c => !isSafeUrl c))) :=
  pctRunF_quoteL ((quoteL cs).length + 1) cs (by omega) ha

theorem utf8DecF_ascii : ∀ (f : Nat) (bs : List Nat), bs.length < f →
    (∀ b ∈ bs, b < 128) → utf8DecF f bs = bs.map Char.ofNat := by
  intro f
  induction f with
  | zero => intro bs h _; omega
  | succ f ih =>
    intro bs h hb
    cases bs with
    | nil => rfl
    | cons b t =>
      rw [show utf8DecF (f + 1) (b :: t) =
        (if b < 128 then Char.ofNat b :: utf8DecF f t
        else
          match utf8Multi b t with
          | some (ch, t1) => ch :: utf8DecF f t1
          | none => Char.ofNat 65533 :: utf8DecF f t) from rfl]
      rw [if_pos (hb b (by simp))]
      rw [ih t (by simp at h; omega) (fun x hx => hb x (by simp [hx]))]
      rfl

theorem utf8Dec_ascii (bs : List Nat) (hb : ∀ b ∈ bs, b < 128) :
    utf8Dec bs = bs.map Char.ofNat :=
  utf8DecF_ascii _ bs (by omega) hb

theorem quoteL_dropWhile_le (p : Char → Bool) :
    ∀ t : List Char, (quoteL (t.dropWhile p)).length ≤ (quoteL t).length := by
  intro t
  induction t with
  | nil => simp
  | cons c t ih =>
    rw [List.dropWhile_cons]
    by_cases hp : p c = true
    · rw [if_pos hp]
      calc (quoteL (t.dropWhile p)).length ≤ (quoteL t).length := ih
        _ ≤ (quoteL (c :: t)).length := by
          rw [quoteL_cons]
          simp
    · rw [if_neg hp]

theorem mem_of_mem_takeWhileC {p : Char → Bool} {x : Char} :
    ∀ {l : List Char}, x ∈ l.takeWhile p → x ∈ l := by
  intro l
  induction l with
  | nil => intro h; simp at h
  | cons c t ih =>
    intro h
    rw [List.takeWhile_cons] at h
    by_cases hp : p c = true
    · rw [if_pos hp] at h
      rcases List.mem_cons.mp h with h | h
      · simp [h]
      · simp [ih h]
    · rw [if_neg hp] at h
      simp at h

theorem mem_of_mem_dropWhileC {p : Char → Bool} {x : Char} :
    ∀ {l : List Char}, x ∈ l.dropWhile p → x ∈ l := by
  intro l
  induction l with
  | nil => intro h; simp at h
  | cons c t ih =>
    intro h
    rw [List.dropWhile_cons] at h
    by_cases hp : p c = true
    · rw [if_pos hp] at h
      simp [ih h]
    · rw [if_neg hp] at h
      exact h

theorem unqF_cons (f : Nat) (c : Char) (t : List Char) :
    unqF (f + 1) (c :: t) =
      (if c = '%' then
        match pctHex t with
        | some _ => utf8Dec (pctRun (c :: t)).1 ++ unqF f (pctRun (c :: t)).2
        | none => c :: unqF f t
      else c :: unqF f t) := rfl

theorem unqF_quoteL : ∀ (f : Nat) (cs : List Char), (quoteL cs).length < f →
    (∀ c ∈ cs, c.toNat < 128) → unqF f (quoteL cs) = cs := by
  intro f
  induction f with
  | zero => intro cs h _; omega
  | succ f ih =>
    intro cs hlen ha
    cases cs with
    | nil => rfl
    | cons c t =>
      have hac : c.toNat < 128 := ha c (by simp)
      have hat : ∀ x ∈ t, x.toNat < 128 := fun x hx => ha x (by simp [hx])
      by_cases hs : isSafeUrl c = true
      · rw [quoteL_cons, quoteChar_safe hs, List.cons_append, List.nil_append] at hlen ⊢
        rw [unqF_cons, if_neg (isSafeUrl_ne_pct hs), ih t (by simp at hlen; omega) hat]
      · have hs' : isSafeUrl c = false := by
          cases hcs : isSafeUrl c with
          | true => exact absurd hcs hs
          | false => rfl
        have hql : quoteL (c :: t) =
            '%' :: hexDigitUC (c.toNat / 16 % 16) :: hexDigitUC (c.toNat % 16) :: quoteL t := by
          rw [quoteL_cons, quoteChar_unsafe_ascii hs' hac]
          simp
        rw [hql] at hlen ⊢
        rw [unqF_cons, if_pos rfl]
        rw [pctHex_hex (show c.toNat / 16 % 16 < 16 by omega)
          (show c.toNat % 16 < 16 by omega) (quoteL t)]
        rw [← hql, pctRun_quoteL (c :: t) ha]
        have htake : ∀ x ∈ (c :: t).takeWhile (fun c => !isSafeUrl c), x.toNat < 128 :=
          fun x hx => ha x (mem_of_mem_takeWhileC hx)
        rw [utf8Dec_ascii _ (by
          intro b hb
          rcases List.mem_map.mp hb with ⟨x, hx, hxe⟩
          subst hxe
          exact htake x hx)]
        rw [List.map_map, show Char.ofNat ∘ Char.toNat = id from funext Char.ofNat_toNat,
          List.map_id]
        rw [ih ((c :: t).dropWhile (fun c => !isSafeUrl c))
          (by
            have hd2 := quoteL_dropWhile_le (fun c => !isSafeUrl c) t
            rw [List.dropWhile_cons, if_pos (by simp [hs'])]
            simp only [List.length_cons] at hlen
            omega)
          (fun x hx => ha x (mem_of_mem_dropWhileC hx))]
        show List.takeWhile (fun c => !isSafeUrl c) (c :: t) ++
          List.dropWhile (fun c => !isSafeUrl c) (c :: t) = c :: t
        exact List.takeWhile_append_dropWhile _ _

theorem digit_ascii {c : Char} (h : isDigit c = true) : c.toNat < 128 := by
  simp [isDigit] at h
  omega

theorem hexDigitLC_ascii {d : Nat} (h : d < 16) : (hexDigitLC d).toNat < 128 := by
  rw [toNat_hexDigitLC h]
  split_ifs <;> omega

theorem hex4_ascii (n : Nat) : ∀ c ∈ hex4 n, c.toNat < 128 := by
  intro c hc
  simp [hex4] at hc
  rcases hc with rfl | rfl | rfl | rfl <;> exact hexDigitLC_ascii (by omega)

theorem escChar_ascii (x : Char) : ∀ c ∈ escChar x, c.toNat < 128 := by
  unfold escChar
  split_ifs with h1 h2 h3 h4 h5
  all_goals intro c hc
  · simp at hc
    rcases hc with rfl | rfl
    all_goals decide
  · simp at hc
    rcases hc with rfl | rfl
    all_goals decide
  · rcases List.mem_cons.mp hc with rfl | hc
    · decide
    · rcases List.mem_cons.mp hc with rfl | hc
      · decide
      · exact hex4_ascii _ c hc
  · simp at hc
    subst hc
    exact h4
  · rcases List.mem_cons.mp hc with rfl | hc
    · decide
    · rcases List.mem_cons.mp hc with rfl | hc
      · decide
      · exact hex4_ascii _ c hc
  · rcases List.mem_cons.mp hc with rfl | hc
    · decide
    · rcases List.mem_cons.mp hc with rfl | hc
      · decide
      · rcases List.mem_append.mp hc with hc | hc
        · exact hex4_ascii _ c hc
        · rcases List.mem_cons.mp hc with rfl | hc
          · decide
          · rcases List.mem_cons.mp hc with rfl | hc
            · decide
            · exact hex4_ascii _ c hc

theorem escStr_ascii (l : List Char) : ∀ c ∈ escStr l, c.toNat < 128 := by
  intro c hc
  unfold escStr at hc
  rcases List.mem_flatten.mp hc with ⟨a, ha, hca⟩
  rcases List.mem_map.mp ha with ⟨x, hx, rfl⟩
  exact escChar_ascii x c hca

mutual

theorem serVal_ascii : ∀ (v : Jval), ∀ c ∈ serVal v, c.toNat < 128
  | .null => by
    intro c hc
    simp [serVal] at hc
    rcases hc with rfl | rfl | rfl | rfl <;> decide
  | .bool true => by
    intro c hc
    simp [serVal] at hc
    rcases hc with rfl | rfl | rfl | rfl <;> decide
  | .bool false => by
    intro c hc
    simp [serVal] at hc
    rcases hc with rfl | rfl | rfl | rfl | rfl <;> decide
  | .num n => by
    intro c hc
    simp only [serVal] at hc
    by_cases hn : n < 0
    · rw [if_pos hn] at hc
      rcases List.mem_cons.mp hc with rfl | hm
      · decide
      · exact digit_ascii (natSer_all_digits _ c hm)
    · rw [if_neg hn] at hc
      exact digit_ascii (natSer_all_digits _ c hc)
  | .str s => by
    intro c hc
    simp only [serVal] at hc
    rcases List.mem_cons.mp hc with rfl | hm
    · decide
    · rcases List.mem_append.mp hm with hm | hm
      · exact escStr_ascii _ c hm
      · simp at hm
        subst hm
        decide
  | .arr xs => by
    intro c hc
    simp only [serVal] at hc
    rcases List.mem_cons.mp hc with rfl | hm
    · decide
    · rcases List.mem_append.mp hm with hm | hm
      · exact serItems_ascii xs c hm
      · simp at hm
        subst hm
        decide
  | .obj fs => by
    intro c hc
    simp only [serVal] at hc
    rcases List.mem_cons.mp hc with rfl | hm
    · decide
    · rcases List.mem_append.mp hm with hm | hm
      · exact serFields_ascii fs c hm
      · simp at hm
        subst hm
        decide

theorem serItems_ascii : ∀ (xs : List Jval), ∀ c ∈ serItems xs, c.toNat < 128
  | [] => by intro c hc; simp [serItems] at hc
  | [x] => by
    intro c hc
    rw [show serItems [x] = serVal x from rfl] at hc
    exact serVal_ascii x c hc
  | x :: y :: t => by
    intro c hc
    rw [show serItems (x :: y :: t) = serVal x ++ ',' :: serItems (y :: t) from rfl] at hc
    rcases List.mem_append.mp hc with hm | hm
    · exact serVal_ascii x c hm
    · rcases List.mem_cons.mp hm with rfl | hm
      · decide
      · exact serItems_ascii (y :: t) c hm

theorem serFields_ascii : ∀ (fs : List (String × Jval)), ∀ c ∈ serFields fs, c.toNat < 128
  | [] => by intro c hc; simp [serFields] at hc
  | [(k, v)] => by
    intro c hc
    rw [show serFields [(k, v)] = '"' :: escStr k.data ++ '"' :: ':' :: serVal v from rfl] at hc
    rcases List.mem_cons.mp hc with rfl | hm
    · decide
    · rcases List.mem_append.mp hm with hm | hm
      · exact escStr_ascii _ c hm
      · rcases List.mem_cons.mp hm with rfl | hm
        · decide
        · rcases List.mem_cons.mp hm with rfl | hm
          · decide
          · exact serVal_ascii v c hm
  | (k, v) :: g :: t => by
    intro c hc
    rw [show serFields ((k, v) :: g :: t) =
      ('"' :: escStr k.data ++ '"' :: ':' :: serVal v) ++ ',' :: serFields (g :: t)
      from rfl] at hc
    rcases List.mem_append.mp hc with hm | hm
    · rcases List.mem_cons.mp hm with rfl | hm
      · decide
      · rcases List.mem_append.mp hm with hm | hm
        · exact escStr_ascii _ c hm
        · rcases List.mem_cons.mp hm with rfl | hm
          · decide
          · rcases List.mem_cons.mp hm with rfl | hm
            · decide
            · exact serVal_ascii v c hm
    · rcases List.mem_cons.mp hm with rfl | hm
      · decide
      · exact serFields_ascii (g :: t) c hm

end

/-- C10: every Aura action POST is assembled with an empty cookie dict —
`send_request` builds its transport as `BasicHttp()` — even though the
constructor stores the configured session id; the form fields are exactly
`message`, `aura.context` and `aura.token`. -/
theorem claim_C10_action_post_no_cookies (payload : Jval) (config : ActionConfig)
    (raw : Bool) :
    (sendRequestPost (mkAuraActionRequest payload config raw)).cookies = [] ∧
    (mkAuraActionRequest payload config raw).session_id = config.session_id ∧
    (sendRequestPost (mkAuraActionRequest payload config raw)).formValues =
      [("message", jsonDumps payload), ("aura.context", config.aura_config),
        ("aura.token", config.aura_token)] ∧
    (sendRequestPost (mkAuraActionRequest payload config raw)).url =
      config.active_endpoint :=
  ⟨rfl, rfl, rfl, rfl⟩

/-- C4: when the fetched base page contains the literal redirect assignment
`window.location.href ='<baseUrl>`, the loader performs exactly one further
fetch — of the single-quoted captured target, with no cookie — and the
second response body is used as is, never re-checked for redirects (the log
is the same for every oracle, hence for second bodies that contain redirect
markers themselves). -/
theorem claim_C4_redirect_single_fetch_no_cookie
    (fetch : String → Option String → String) (url sid : String) (cap : List Char)
    (hmark : strContains (fetch url (basicHttpCookie sid))
      ("window.location.href ='" ++ url) = true)
    (hcap : searchHref (fetch url (basicHttpCookie sid)).data = some cap) :
    (getAuraConfig fetch url sid).1 =
      [⟨url, basicHttpCookie sid⟩, ⟨String.mk cap, none⟩] ∧
    (handleLoginPageRedirects fetch url (fetch url (basicHttpCookie sid))).2 =
      .ok (fetch (String.mk cap) none) := by
  have hred : handleLoginPageRedirects fetch url (fetch url (basicHttpCookie sid)) =
      ([⟨String.mk cap, none⟩], .ok (fetch (String.mk cap) none)) := by
    unfold handleLoginPageRedirects
    rw [if_pos hmark, hcap]
  constructor
  · simp only [getAuraConfig, hred]
  · rw [hred]

/-- Witness for C4: a concrete landing page redirecting to
`https://x/login`; the second page contains a redirect marker itself and is
still not followed. -/
theorem claim_C4_redirect_single_fetch_no_cookie_witness :
    (getAuraConfig
      (fun u c =>
        if u = "https://x" ∧ c = some "S" then "window.location.href ='https://x/login'"
        else "window.location.href ='https://x/loop'")
      "https://x" "S").1 =
      [⟨"https://x", basicHttpCookie "S"⟩, ⟨"https://x/login", none⟩] :=
  (claim_C4_redirect_single_fetch_no_cookie
    (fun u c =>
      if u = "https://x" ∧ c = some "S" then "window.location.href ='https://x/login'"
      else "window.location.href ='https://x/loop'")
    "https://x" "S" "https://x/login".data (by decide) (by decide)).1

set_option maxRecDepth 20000 in
/-- C5 counterexample: with a redirecting landing page whose body carries
the script tag `src="/a.js"` while the post-redirect page carries
`src="/b.js"`, the code resolves the bootstrap URL from the *post-redirect*
body (`https://host/b.js`), not from the original pre-redirect body, which
would give `https://host/a.js`. -/
theorem claim_C5_counterexample :
    (getAuraConfig
      (fun u _ =>
        if u = "https://host" then
          "<script src=\"/a.js\"></script>window.location.href ='https://host/l'"
        else
          "<script src=\"/b.js\"></script>/s/sfsites/l/%7B%22fwuid%22%3A%22A%22%2C%22app%22%3A%22x%22%2C%22loaded%22%3A%7B%22a%22%3A1%7D%7D/")
      "https://host" "").2 =
      .ok (.obj [("mode", .str "PROD"), ("fwuid", .str "A"), ("app", .str "x"),
        ("loaded", .obj [("a", .num 1)]), ("dn", .arr []), ("globals", .obj []),
        ("uad", .bool false)], "https://host/b.js") ∧
    extractBootstrapUrl "https://host"
      "<script src=\"/a.js\"></script>window.location.href ='https://host/l'" =
      .ok "https://host/a.js" :=
  ⟨rfl, rfl⟩

/-- C5 (amended): the bootstrap URL is computed from the page body *after*
redirect handling: whenever the landing page redirects and the pipeline
succeeds, the returned bootstrap URL is the one extracted from the
post-redirect body. -/
theorem claim_C5_amended_bootstrap_from_final_body
    (fetch : String → Option String → String) (url sid : String) (cap : List Char)
    (hmark : strContains (fetch url (basicHttpCookie sid))
      ("window.location.href ='" ++ url) = true)
    (hcap : searchHref (fetch url (basicHttpCookie sid)).data = some cap)
    (ctx : Jval) (bs : String)
    (hok : (getAuraConfig fetch url sid).2 = .ok (ctx, bs)) :
    extractBootstrapUrl url (fetch (String.mk cap) none) = .ok bs := by
  have hred : handleLoginPageRedirects fetch url (fetch url (basicHttpCookie sid)) =
      ([⟨String.mk cap, none⟩], .ok (fetch (String.mk cap) none)) := by
    unfold handleLoginPageRedirects
    rw [if_pos hmark, hcap]
  simp only [getAuraConfig, hred, getAuraConfigResult] at hok
  cases hbs : extractBootstrapUrl url (fetch (String.mk cap) none) with
  | error e => simp [hbs] at hok
  | ok bs2 =>
    simp only [hbs] at hok
    cases hd : extractAuraEndpointDetails (fetch (String.mk cap) none) with
    | error e => simp [hd] at hok
    | ok details =>
      simp only [hd] at hok
      cases hv : validateAuraEndpointDetails details with
      | error e => simp [hv] at hok
      | ok u =>
        simp only [hv] at hok
        cases hb : buildAuraConfig details with
        | error e => simp [hb] at hok
        | ok cfg =>
          simp only [hb, Except.ok.injEq, Prod.mk.injEq] at hok
          rw [hok.2]

set_option maxRecDepth 20000 in
/-- Witness for the amended C5 at the concrete redirecting site of the
counterexample. -/
theorem claim_C5_amended_bootstrap_from_final_body_witness :
    extractBootstrapUrl "https://host"
      ((fun u (_ : Option String) =>
        if u = "https://host" then
          "<script src=\"/a.js\"></script>window.location.href ='https://host/l'"
        else
          "<script src=\"/b.js\"></script>/s/sfsites/l/%7B%22fwuid%22%3A%22A%22%2C%22app%22%3A%22x%22%2C%22loaded%22%3A%7B%22a%22%3A1%7D%7D/")
        "https://host/l" none) = .ok "https://host/b.js" :=
  claim_C5_amended_bootstrap_from_final_body
    (fun u _ =>
      if u = "https://host" then
        "<script src=\"/a.js\"></script>window.location.href ='https://host/l'"
      else
        "<script src=\"/b.js\"></script>/s/sfsites/l/%7B%22fwuid%22%3A%22A%22%2C%22app%22%3A%22x%22%2C%22loaded%22%3A%7B%22a%22%3A1%7D%7D/")
    "https://host" "" "https://host/l".data (by decide) (by decide)
    (.obj [("mode", .str "PROD"), ("fwuid", .str "A"), ("app", .str "x"),
      ("loaded", .obj [("a", .num 1)]), ("dn", .arr []), ("globals", .obj []),
      ("uad", .bool false)]) "https://host/b.js" rfl

/-- C1 counterexample: on the spec's own scenario body, where the embedded
config carries `loaded:{}`, validation *fails* — `details.get("loaded")`
is the empty dict, which is falsy in Python, so `all(...)` is false and the
loader raises instead of returning the Aura context. -/
theorem claim_C1_counterexample :
    auraConfigOfBody
      "/s/sfsites/l/%7B%22fwuid%22%3A%22ABC%22%2C%22app%22%3A%22one%22%2C%22loaded%22%3A%7B%7D%7D/" =
      .error .missingFields :=
  rfl

/-- C1 (amended): the extraction-validation-build pipeline succeeds exactly
as the claim describes once `loaded` is truthy (non-empty): on the same
body with `loaded:{"a":1}`, it returns the Aura context
`{mode:"PROD", fwuid:"ABC", app:"one", loaded:{"a":1}, dn:[], globals:{},
uad:false}`. -/
theorem claim_C1_amended_truthy_loaded :
    auraConfigOfBody
      "/s/sfsites/l/%7B%22fwuid%22%3A%22ABC%22%2C%22app%22%3A%22one%22%2C%22loaded%22%3A%7B%22a%22%3A1%7D%7D/" =
      .ok (.obj [("mode", .str "PROD"), ("fwuid", .str "ABC"), ("app", .str "one"),
        ("loaded", .obj [("a", .num 1)]), ("dn", .arr []), ("globals", .obj []),
        ("uad", .bool false)]) :=
  rfl

/-- C6 counterexample: on the envelope `{"actions":[]}` the non-raw unwrap
neither raises the malformed-response error nor returns a value — the
subscript `actions[0]` raises `IndexError`, a distinct failure. -/
theorem claim_C6_counterexample :
    processResponse false "\x7b\"actions\":[]\x7d" = .error .indexErr ∧
    (AErr.indexErr ≠ AErr.malformed ∧ AErr.indexErr ≠ AErr.auraException) :=
  ⟨rfl, by decide, by decide⟩

/-- C8 counterexample: the miner records `value.replace("markup://", "")`,
which removes *every* occurrence of the prefix: on
`{"descriptor":"markup://amarkup://b"}` it records `"ab"`, whereas
stripping only the leading prefix would give `"amarkup://b"`. -/
theorem claim_C8_counterexample :
    findDesc (.obj [("descriptor", .str "markup://amarkup://b")]) = .ok ["ab"] ∧
    ("ab" : String) ≠ "amarkup://b" := by
  constructor
  · simp only [findDesc, fdFields]
    rfl
  · decide

/-- For envelopes whose `exceptionEvent` is not literally `true`, the
non-raw unwrap falls through to the `actions` handling. -/
theorem unwrapEnvelope_nonexc (fs : List (String × Jval))
    (hne : pyGet fs "exceptionEvent" ≠ some (.bool true)) :
    unwrapEnvelope false (.obj fs) =
      match pyGet fs "actions" with
      | none => .error .malformed
      | some (.arr []) => .error .indexErr
      | some (.arr (a :: _)) =>
        match a with
        | .obj afs =>
          match pyGet afs "state" with
          | none => .error .malformed
          | some _ => .ok ((pyGet afs "returnValue").getD .null)
        | _ => .error .attrErr
      | some (.str s) => if s = "" then .error .indexErr else .error .attrErr
      | some (.obj _) => .error .keyErr
      | some _ => .error .typeErr := by
  simp only [unwrapEnvelope]
  rw [if_neg (by decide : ¬(false = true))]

/-- C6 (amended): in raw mode the parsed envelope is returned unmodified;
in non-raw mode, `exceptionEvent = true` raises the Aura exception, a
missing `actions` key or a missing `state` on the first action raises the
malformed-response error, a present `state` yields `actions[0].returnValue`
— and, correcting the claim, a present-but-*empty* `actions` list is a
distinct `IndexError`, not the malformed-response error. -/
theorem claim_C6_amended_unwrap_characterization (env : Jval)
    (fs afs : List (String × Jval)) (rest : List Jval) :
    unwrapEnvelope true env = .ok env ∧
    (pyGet fs "exceptionEvent" = some (.bool true) →
      unwrapEnvelope false (.obj fs) = .error .auraException) ∧
    (pyGet fs "exceptionEvent" ≠ some (.bool true) →
      pyGet fs "actions" = none →
      unwrapEnvelope false (.obj fs) = .error .malformed) ∧
    (pyGet fs "exceptionEvent" ≠ some (.bool true) →
      pyGet fs "actions" = some (.arr (.obj afs :: rest)) →
      pyGet afs "state" = none →
      unwrapEnvelope false (.obj fs) = .error .malformed) ∧
    (pyGet fs "exceptionEvent" ≠ some (.bool true) →
      pyGet fs "actions" = some (.arr (.obj afs :: rest)) →
      (∃ v, pyGet afs "state" = some v) →
      unwrapEnvelope false (.obj fs) = .ok ((pyGet afs "returnValue").getD .null)) ∧
    (pyGet fs "exceptionEvent" ≠ some (.bool true) →
      pyGet fs "actions" = some (.arr []) →
      unwrapEnvelope false (.obj fs) = .error .indexErr) := by
  refine ⟨rfl, ?_, ?_, ?_, ?_, ?_⟩
  · intro hexc
    simp only [unwrapEnvelope]
    rw [if_neg (by decide : ¬(false = true)), hexc]
  · intro hne hact
    rw [unwrapEnvelope_nonexc fs hne, hact]
  · intro hne hact hst
    rw [unwrapEnvelope_nonexc fs hne, hact]
    simp only [hst]
  · intro hne hact hst
    obtain ⟨v, hv⟩ := hst
    rw [unwrapEnvelope_nonexc fs hne, hact]
    simp only [hv]
  · intro hne hact
    rw [unwrapEnvelope_nonexc fs hne, hact]

/-- Witness for the amended C6: the spec scenario envelope
`{"actions":[{"state":"SUCCESS","returnValue":{"x":1}}]}` unwraps to
`{"x":1}` in non-raw mode. -/
theorem claim_C6_amended_unwrap_characterization_witness :
    unwrapEnvelope false (.obj [("actions", .arr [.obj [("state", .str "SUCCESS"),
      ("returnValue", .obj [("x", .num 1)])]])]) = .ok (.obj [("x", .num 1)]) :=
  (claim_C6_amended_unwrap_characterization .null
    [("actions", .arr [.obj [("state", .str "SUCCESS"),
      ("returnValue", .obj [("x", .num 1)])]])]
    [("state", .str "SUCCESS"), ("returnValue", .obj [("x", .num 1)])]
    []).2.2.2.2.1
    (fun h => Option.noConfusion h) rfl ⟨.str "SUCCESS", rfl⟩

/-- Mined descriptors arise only from objects. -/
theorem descIn_nonobj_elim {v : Jval} {s : String} (h : DescIn v s)
    (hno : ∀ fs, v ≠ Jval.obj fs) : False := by
  cases h <;> exact hno _ rfl

/-- Nothing is mined from an empty object. -/
theorem descIn_nil (s : String) : ¬ DescIn (.obj []) s := by
  intro h
  cases h <;> simp_all

/-- Inversion of descriptor reachability at a cons object: through the head
pair as a descriptor entry, a nested object, or a list of objects — or
through the tail. -/
theorem descIn_cons (k : String) (v : Jval) (t : List (String × Jval)) (s : String) :
    DescIn (.obj ((k, v) :: t)) s ↔
      (k = "descriptor" ∧ v = .str s) ∨
      (k ≠ "descriptor" ∧ DescIn v s) ∨
      (k ≠ "descriptor" ∧ ∃ xs, v = .arr xs ∧ ∃ x ∈ xs, DescIn x s) ∨
      DescIn (.obj t) s := by
  constructor
  · intro h
    cases h
    next hm =>
      rcases List.mem_cons.mp hm with he | hm2
      · injection he with h1 h2
        exact Or.inl ⟨h1.symm, h2.symm⟩
      · exact Or.inr (Or.inr (Or.inr (DescIn.here t s hm2)))
    next k2 w hne hm hD =>
      rcases List.mem_cons.mp hm with he | hm2
      · injection he with h1 h2
        subst h1
        subst h2
        exact Or.inr (Or.inl ⟨hne, hD⟩)
      · exact Or.inr (Or.inr (Or.inr (DescIn.nestObj t k2 w s hm2 hne hD)))
    next k2 xs x hne hx hm hD =>
      rcases List.mem_cons.mp hm with he | hm2
      · injection he with h1 h2
        subst h1
        subst h2
        exact Or.inr (Or.inr (Or.inl ⟨hne, xs, rfl, x, hx, hD⟩))
      · exact Or.inr (Or.inr (Or.inr (DescIn.nestArr t k2 xs x s hm2 hne hx hD)))
  · rintro (⟨hk, hv⟩ | ⟨hne, hD⟩ | ⟨hne, xs, hv, x, hx, hD⟩ | hD)
    · subst hk
      subst hv
      exact DescIn.here _ _ (List.mem_cons_self _ _)
    · exact DescIn.nestObj _ k v s (List.mem_cons_self _ _) hne hD
    · subst hv
      exact DescIn.nestArr _ k xs x s (List.mem_cons_self _ _) hne hx hD
    · cases hD
      next hm => exact DescIn.here _ _ (List.Mem.tail _ hm)
      next k2 w hne2 hm hD2 =>
        exact DescIn.nestObj _ k2 w s (List.Mem.tail _ hm) hne2 hD2
      next k2 xs2 x2 hne2 hx2 hm hD2 =>
        exact DescIn.nestArr _ k2 xs2 x2 s (List.Mem.tail _ hm) hne2 hx2 hD2

/-- A head pair that can hold no descriptor is invisible to `minedFrom`. -/
theorem minedFrom_cons_skip (k : String) (v : Jval) (t : List (String × Jval)) (s : String)
    (hnd : ∀ w, ¬ DescIn v w) (hna : ∀ xs, v ≠ .arr xs)
    (hns : k = "descriptor" → ∀ w, v ≠ .str w) :
    minedFrom (.obj ((k, v) :: t)) s ↔ minedFrom (.obj t) s := by
  constructor
  · rintro ⟨raw, hD, hp, he⟩
    rcases (descIn_cons _ _ _ _).mp hD with ⟨hkk, hv⟩ | ⟨-, hD2⟩ | ⟨-, xs, hv, -⟩ | hD2
    · exact absurd hv (hns hkk raw)
    · exact absurd hD2 (hnd raw)
    · exact absurd hv (hna xs)
    · exact ⟨raw, hD2, hp, he⟩
  · rintro ⟨raw, hD, hp, he⟩
    exact ⟨raw, (descIn_cons _ _ _ _).mpr (Or.inr (Or.inr (Or.inr hD))), hp, he⟩

/-- A list item that can hold no descriptor is invisible to item mining. -/
theorem mem_cons_skip (x : Jval) (t : List Jval) (s : String)
    (hx : ∀ w, ¬ DescIn x w) (P : Prop)
    (hiff : P ↔ ∃ y ∈ t, minedFrom y s) :
    P ↔ ∃ y ∈ x :: t, minedFrom y s := by
  rw [hiff]
  constructor
  · rintro ⟨y, hy, hm⟩
    exact ⟨y, List.Mem.tail _ hy, hm⟩
  · rintro ⟨y, hy, hm⟩
    rcases List.mem_cons.mp hy with rfl | hy2
    · obtain ⟨raw, hD, -, -⟩ := hm
      exact absurd hD (hx raw)
    · exact ⟨y, hy2, hm⟩

/-- Unfolding step of the field walk at a cons cell. -/
theorem fdFields_cons (k : String) (v : Jval) (t : List (String × Jval)) :
    fdFields ((k, v) :: t) =
      if k = "descriptor" then
        match v with
        | .str sv =>
          if "markup://".data.isPrefixOf sv.data then
            match fdFields t with
            | .error e => .error e
            | .ok rest => .ok (String.mk (removeSubAll "markup://".data sv.data) :: rest)
          else fdFields t
        | _ => .error .attrErr
      else
        match v with
        | .obj gs =>
          match fdFields gs with
          | .error e => .error e
          | .ok inner =>
            match fdFields t with
            | .error e => .error e
            | .ok rest => .ok (inner ++ rest)
        | .arr xs =>
          match fdItems xs with
          | .error e => .error e
          | .ok inner =>
            match fdFields t with
            | .error e => .error e
            | .ok rest => .ok (inner ++ rest)
        | _ => fdFields t := by
  rw [fdFields.eq_def]

/-- Unfolding step of the item walk at a cons cell. -/
theorem fdItems_cons (x : Jval) (t : List Jval) :
    fdItems (x :: t) =
      match x with
      | .obj gs =>
        match fdFields gs with
        | .error e => .error e
        | .ok inner =>
          match fdItems t with
          | .error e => .error e
          | .ok rest => .ok (inner ++ rest)
      | _ => fdItems t := by
  rw [fdItems.eq_def]

mutual

/-- The miner's result on a value lists exactly the strings `minedFrom` it. -/
theorem findDesc_mem : ∀ (v : Jval) (ds : List String) (s : String),
    findDesc v = .ok ds → (s ∈ ds ↔ minedFrom v s)
  | .obj fs, ds, s => by
    intro h
    simp only [findDesc] at h
    exact fdFields_mem fs ds s h
  | .null, ds, s => by intro h; simp [findDesc] at h
  | .bool b, ds, s => by intro h; simp [findDesc] at h
  | .num n, ds, s => by intro h; simp [findDesc] at h
  | .str t, ds, s => by intro h; simp [findDesc] at h
  | .arr xs, ds, s => by intro h; simp [findDesc] at h

/-- Field-list version of the miner membership characterisation. -/
theorem fdFields_mem : ∀ (fs : List (String × Jval)) (ds : List String) (s : String),
    fdFields fs = .ok ds → (s ∈ ds ↔ minedFrom (.obj fs) s)
  | [], ds, s => by
    intro h
    simp only [fdFields] at h
    injection h with h
    subst h
    constructor
    · intro hm
      cases hm
    · rintro ⟨raw, hD, -, -⟩
      exact absurd hD (descIn_nil raw)
  | (k, v) :: t, ds, s => by
    intro h
    rw [fdFields_cons] at h
    by_cases hk : k = "descriptor"
    · rw [if_pos hk] at h
      subst hk
      cases v with
      | str sv =>
        simp only [] at h
        by_cases hpre : "markup://".data.isPrefixOf sv.data = true
        · rw [if_pos hpre] at h
          cases hft : fdFields t with
          | error e => simp [hft] at h
          | ok rest =>
            simp only [hft] at h
            injection h with h
            subst h
            rw [List.mem_cons, fdFields_mem t rest s hft]
            constructor
            · rintro (rfl | ⟨raw, hD, hp, he⟩)
              · exact ⟨sv, (descIn_cons _ _ _ _).mpr (Or.inl ⟨rfl, rfl⟩), hpre, rfl⟩
              · exact ⟨raw, (descIn_cons _ _ _ _).mpr (Or.inr (Or.inr (Or.inr hD))), hp, he⟩
            · rintro ⟨raw, hD, hp, he⟩
              rcases (descIn_cons _ _ _ _).mp hD with ⟨-, hv⟩ | ⟨hne, -⟩ | ⟨hne, -⟩ | hD2
              · injection hv with hv
                subst hv
                exact Or.inl he
              · exact absurd rfl hne
              · exact absurd rfl hne
              · exact Or.inr ⟨raw, hD2, hp, he⟩
        · rw [if_neg hpre] at h
          rw [fdFields_mem t ds s h]
          constructor
          · rintro ⟨raw, hD, hp, he⟩
            exact ⟨raw, (descIn_cons _ _ _ _).mpr (Or.inr (Or.inr (Or.inr hD))), hp, he⟩
          · rintro ⟨raw, hD, hp, he⟩
            rcases (descIn_cons _ _ _ _).mp hD with ⟨-, hv⟩ | ⟨hne, -⟩ | ⟨hne, -⟩ | hD2
            · injection hv with hv
              subst hv
              exact absurd hp hpre
            · exact absurd rfl hne
            · exact absurd rfl hne
            · exact ⟨raw, hD2, hp, he⟩
      | null => simp only [] at h; cases h
      | bool b => simp only [] at h; cases h
      | num n => simp only [] at h; cases h
      | arr xs => simp only [] at h; cases h
      | obj gs => simp only [] at h; cases h
    · rw [if_neg hk] at h
      cases v with
      | obj gs =>
        simp only [] at h
        cases hfg : fdFields gs with
        | error e => simp [hfg] at h
        | ok inner =>
          simp only [hfg] at h
          cases hft : fdFields t with
          | error e => simp [hft] at h
          | ok rest =>
            simp only [hft] at h
            injection h with h
            subst h
            rw [List.mem_append, fdFields_mem gs inner s hfg, fdFields_mem t rest s hft]
            constructor
            · rintro (⟨raw, hD, hp, he⟩ | ⟨raw, hD, hp, he⟩)
              · exact ⟨raw, (descIn_cons _ _ _ _).mpr (Or.inr (Or.inl ⟨hk, hD⟩)), hp, he⟩
              · exact ⟨raw, (descIn_cons _ _ _ _).mpr (Or.inr (Or.inr (Or.inr hD))), hp, he⟩
            · rintro ⟨raw, hD, hp, he⟩
              rcases (descIn_cons _ _ _ _).mp hD with ⟨hkk, -⟩ | ⟨-, hD2⟩ | ⟨-, xs, hv, -⟩ | hD2
              · exact absurd hkk hk
              · exact Or.inl ⟨raw, hD2, hp, he⟩
              · exact Jval.noConfusion hv
              · exact Or.inr ⟨raw, hD2, hp, he⟩
      | arr xs =>
        simp only [] at h
        cases hfg : fdItems xs with
        | error e => simp [hfg] at h
        | ok inner =>
          simp only [hfg] at h
          cases hft : fdFields t with
          | error e => simp [hft] at h
          | ok rest =>
            simp only [hft] at h
            injection h with h
            subst h
            rw [List.mem_append, fdItems_mem xs inner s hfg, fdFields_mem t rest s hft]
            constructor
            · rintro (⟨x, hx, raw, hD, hp, he⟩ | ⟨raw, hD, hp, he⟩)
              · exact ⟨raw,
                  (descIn_cons _ _ _ _).mpr (Or.inr (Or.inr (Or.inl ⟨hk, xs, rfl, x, hx, hD⟩))),
                  hp, he⟩
              · exact ⟨raw, (descIn_cons _ _ _ _).mpr (Or.inr (Or.inr (Or.inr hD))), hp, he⟩
            · rintro ⟨raw, hD, hp, he⟩
              rcases (descIn_cons _ _ _ _).mp hD
                with ⟨hkk, -⟩ | ⟨-, hD2⟩ | ⟨-, xs2, hv, x, hx, hD2⟩ | hD2
              · exact absurd hkk hk
              · exact (descIn_nonobj_elim hD2 (fun fs hv => Jval.noConfusion hv)).elim
              · injection hv with hv
                subst hv
                exact Or.inl ⟨x, hx, raw, hD2, hp, he⟩
              · exact Or.inr ⟨raw, hD2, hp, he⟩
      | null =>
        simp only [] at h
        rw [fdFields_mem t ds s h,
          minedFrom_cons_skip k _ t s
            (fun w hD => descIn_nonobj_elim hD (fun fs hv => Jval.noConfusion hv))
            (fun xs hv => Jval.noConfusion hv) (fun hkk => absurd hkk hk)]
      | bool b =>
        simp only [] at h
        rw [fdFields_mem t ds s h,
          minedFrom_cons_skip k _ t s
            (fun w hD => descIn_nonobj_elim hD (fun fs hv => Jval.noConfusion hv))
            (fun xs hv => Jval.noConfusion hv) (fun hkk => absurd hkk hk)]
      | num n =>
        simp only [] at h
        rw [fdFields_mem t ds s h,
          minedFrom_cons_skip k _ t s
            (fun w hD => descIn_nonobj_elim hD (fun fs hv => Jval.noConfusion hv))
            (fun xs hv => Jval.noConfusion hv) (fun hkk => absurd hkk hk)]
      | str sv =>
        simp only [] at h
        rw [fdFields_mem t ds s h,
          minedFrom_cons_skip k _ t s
            (fun w hD => descIn_nonobj_elim hD (fun fs hv => Jval.noConfusion hv))
            (fun xs hv => Jval.noConfusion hv) (fun hkk => absurd hkk hk)]

/-- Item-list version: only objects in the list contribute. -/
theorem fdItems_mem : ∀ (xs : List Jval) (ds : List String) (s : String),
    fdItems xs = .ok ds → (s ∈ ds ↔ ∃ x ∈ xs, minedFrom x s)
  | [], ds, s => by
    intro h
    simp only [fdItems] at h
    injection h with h
    subst h
    simp
  | x :: t, ds, s => by
    intro h
    rw [fdItems_cons] at h
    cases x with
    | obj gs =>
      simp only [] at h
      cases hfg : fdFields gs with
      | error e => simp [hfg] at h
      | ok inner =>
        simp only [hfg] at h
        cases hft : fdItems t with
        | error e => simp [hft] at h
        | ok rest =>
          simp only [hft] at h
          injection h with h
          subst h
          rw [List.mem_append, fdFields_mem gs inner s hfg, fdItems_mem t rest s hft]
          constructor
          · rintro (hm | ⟨y, hy, hm⟩)
            · exact ⟨.obj gs, List.mem_cons_self _ _, hm⟩
            · exact ⟨y, List.Mem.tail _ hy, hm⟩
          · rintro ⟨y, hy, hm⟩
            rcases List.mem_cons.mp hy with rfl | hy2
            · exact Or.inl hm
            · exact Or.inr ⟨y, hy2, hm⟩
    | null =>
      simp only [] at h
      exact mem_cons_skip _ t s
        (fun w hD => descIn_nonobj_elim hD (fun fs hv => Jval.noConfusion hv)) _
        (fdItems_mem t ds s h)
    | bool b =>
      simp only [] at h
      exact mem_cons_skip _ t s
        (fun w hD => descIn_nonobj_elim hD (fun fs hv => Jval.noConfusion hv)) _
        (fdItems_mem t ds s h)
    | num n =>
      simp only [] at h
      exact mem_cons_skip _ t s
        (fun w hD => descIn_nonobj_elim hD (fun fs hv => Jval.noConfusion hv)) _
        (fdItems_mem t ds s h)
    | str sv =>
      simp only [] at h
      exact mem_cons_skip _ t s
        (fun w hD => descIn_nonobj_elim hD (fun fs hv => Jval.noConfusion hv)) _
        (fdItems_mem t ds s h)
    | arr ys =>
      simp only [] at h
      exact mem_cons_skip _ t s
        (fun w hD => descIn_nonobj_elim hD (fun fs hv => Jval.noConfusion hv)) _
        (fdItems_mem t ds s h)

end

/-- Membership in the accumulator: already collected, or newly mined and
matching no excluded namespace. -/
theorem accumulateComponents_mem (excluded : List String) (ds : List String) :
    ∀ (acc : List String) (s : String),
    s ∈ accumulateComponents excluded acc ds ↔
      s ∈ acc ∨ (s ∈ ds ∧ ∀ x ∈ excluded, strContains s x = false) := by
  induction ds with
  | nil => intro acc s; simp [accumulateComponents]
  | cons cmp t ih =>
    intro acc s
    rw [show accumulateComponents excluded acc (cmp :: t) =
      accumulateComponents excluded
        (if (!excluded.any fun x => strContains cmp x) && !acc.contains cmp
         then acc ++ [cmp] else acc) t from rfl]
    rw [ih]
    by_cases hc : ((!excluded.any fun x => strContains cmp x) && !acc.contains cmp) = true
    · rw [if_pos hc]
      rw [Bool.and_eq_true] at hc
      obtain ⟨hex, -⟩ := hc
      have hexf : ∀ x ∈ excluded, strContains cmp x = false := by
        rw [Bool.not_eq_true'] at hex
        intro x hx
        rcases Bool.eq_false_or_eq_true (strContains cmp x) with ht | hf
        · exact absurd (List.any_eq_true.mpr ⟨x, hx, ht⟩) (by simp [hex])
        · exact hf
      simp only [List.mem_append, List.mem_cons, List.not_mem_nil, or_false]
      constructor
      · rintro ((hm | rfl) | ⟨hm, hall⟩)
        · exact Or.inl hm
        · exact Or.inr ⟨Or.inl rfl, hexf⟩
        · exact Or.inr ⟨Or.inr hm, hall⟩
      · rintro (hm | ⟨(rfl | hm), hall⟩)
        · exact Or.inl (Or.inl hm)
        · exact Or.inl (Or.inr rfl)
        · exact Or.inr ⟨hm, hall⟩
    · rw [if_neg hc]
      simp only [List.mem_cons]
      constructor
      · rintro (hm | ⟨hm, hall⟩)
        · exact Or.inl hm
        · exact Or.inr ⟨Or.inr hm, hall⟩
      · rintro (hm | ⟨(rfl | hm), hall⟩)
        · exact Or.inl hm
        · left
          have hany : (excluded.any fun x => strContains s x) = false := by
            rcases Bool.eq_false_or_eq_true (excluded.any fun x => strContains s x)
              with ht | hf
            · obtain ⟨x, hx, hcx⟩ := List.any_eq_true.mp ht
              rw [hall x hx] at hcx
              cases hcx
            · exact hf
          have hcont : acc.contains s = true := by
            rcases Bool.eq_false_or_eq_true (acc.contains s) with ht | hf
            · exact ht
            · exact absurd (by rw [hany, hf]; rfl) hc
          exact List.mem_of_elem_eq_true hcont
        · exact Or.inr ⟨hm, hall⟩

/-- The accumulator never introduces duplicates. -/
theorem accumulateComponents_nodup (excluded : List String) (ds : List String) :
    ∀ acc : List String, acc.Nodup → (accumulateComponents excluded acc ds).Nodup := by
  induction ds with
  | nil => intro acc h; exact h
  | cons cmp t ih =>
    intro acc h
    rw [show accumulateComponents excluded acc (cmp :: t) =
      accumulateComponents excluded
        (if (!excluded.any fun x => strContains cmp x) && !acc.contains cmp
         then acc ++ [cmp] else acc) t from rfl]
    apply ih
    by_cases hc : ((!excluded.any fun x => strContains cmp x) && !acc.contains cmp) = true
    · rw [if_pos hc]
      rw [Bool.and_eq_true] at hc
      obtain ⟨-, hnc⟩ := hc
      rw [Bool.not_eq_true'] at hnc
      have hnm : cmp ∉ acc := by
        intro hm
        have hcm : acc.contains cmp = true := List.elem_eq_true_of_mem hm
        rw [hcm] at hnc
        cases hnc
      simp [List.nodup_append, h, hnm]
    · rw [if_neg hc]
      exact h

/-- Invariant form of the collector: the final list is duplicate-free and
holds the old accumulator plus every non-excluded mined descriptor. -/
theorem collectComponents_spec (excluded : List String) :
    ∀ (rs : List Jval) (acc l : List String), acc.Nodup →
    collectComponents excluded acc rs = .ok l →
    l.Nodup ∧ ∀ s, s ∈ l ↔ s ∈ acc ∨
      ((∃ r ∈ rs, minedFrom r s) ∧ ∀ x ∈ excluded, strContains s x = false)
  | [], acc, l, hnd, h => by
    simp only [collectComponents] at h
    injection h with h
    subst h
    exact ⟨hnd, fun s => by simp⟩
  | r :: rs, acc, l, hnd, h => by
    simp only [collectComponents] at h
    cases hfd : findDesc r with
    | error e => simp [hfd] at h
    | ok ds =>
      simp only [hfd] at h
      obtain ⟨hnd2, hmem⟩ := collectComponents_spec excluded rs _ l
        (accumulateComponents_nodup _ _ _ hnd) h
      refine ⟨hnd2, fun s => ?_⟩
      rw [hmem s, accumulateComponents_mem]
      rw [List.mem_dedup, findDesc_mem r ds s hfd]
      constructor
      · rintro ((hm | ⟨hm, hall⟩) | ⟨⟨r2, hr2, hm⟩, hall⟩)
        · exact Or.inl hm
        · exact Or.inr ⟨⟨r, List.mem_cons_self _ _, hm⟩, hall⟩
        · exact Or.inr ⟨⟨r2, List.Mem.tail _ hr2, hm⟩, hall⟩
      · rintro (hm | ⟨⟨r2, hr2, hm⟩, hall⟩)
        · exact Or.inl (Or.inl hm)
        · rcases List.mem_cons.mp hr2 with rfl | hr3
          · exact Or.inl (Or.inr ⟨hm, hall⟩)
          · exact Or.inr ⟨⟨r2, hr3, hm⟩, hall⟩

/-- C8 (amended): the miner lists exactly the `descriptor` string values
reachable through nested objects and objects inside lists that start with
`markup://` — but with *every* occurrence of `markup://` removed (Python
`str.replace` removes all, not just the leading prefix); the collector's
accumulated result is duplicate-free and holds exactly the mined
descriptors containing no configured excluded-namespace substring. -/
theorem claim_C8_amended_miner_characterization (v : Jval) (ds : List String)
    (excluded : List String) (rs : List Jval) (l : List String) (s : String) :
    (findDesc v = .ok ds → (s ∈ ds ↔ minedFrom v s)) ∧
    (collectComponents excluded [] rs = .ok l →
      l.Nodup ∧ (s ∈ l ↔ (∃ r ∈ rs, minedFrom r s) ∧
        ∀ x ∈ excluded, strContains s x = false)) := by
  constructor
  · exact findDesc_mem v ds s
  · intro h
    obtain ⟨hnd, hmem⟩ := collectComponents_spec excluded rs [] l List.nodup_nil h
    refine ⟨hnd, ?_⟩
    rw [hmem s]
    simp

/-- Witness for the amended C8: mining the one-field response
`{"descriptor":"markup://c:cmp"}` yields membership exactly as characterised. -/
theorem claim_C8_amended_miner_characterization_witness :
    ("c:cmp" ∈ (["c:cmp"] : List String) ↔
      minedFrom (.obj [("descriptor", .str "markup://c:cmp")]) "c:cmp") :=
  (claim_C8_amended_miner_characterization
    (.obj [("descriptor", .str "markup://c:cmp")]) ["c:cmp"] [] [] [] "c:cmp").1
    (by simp only [findDesc, fdFields]; rfl)

/-- Reading back the key just assigned. -/
theorem jGetF_objSet_same (fs : List (String × Jval)) (k : String) (v : Jval) :
    jGetF (objSet fs k v) k = some v := by
  induction fs with
  | nil => simp [objSet, jGetF]
  | cons kv t ih =>
    obtain ⟨k2, w⟩ := kv
    by_cases h : k2 = k
    · subst h
      simp [objSet, jGetF]
    · simp [objSet, jGetF, h, ih]

/-- Assigning one key leaves the other keys' lookups unchanged. -/
theorem jGetF_objSet_other (fs : List (String × Jval)) (k k2 : String) (v : Jval)
    (h : k ≠ k2) : jGetF (objSet fs k v) k2 = jGetF fs k2 := by
  induction fs with
  | nil => simp [objSet, jGetF, h]
  | cons kv t ih =>
    obtain ⟨k3, w⟩ := kv
    by_cases h3 : k3 = k
    · subst h3
      simp [objSet, jGetF, h]
    · simp [objSet, jGetF, h3, ih]

/-- Reassigning a key overwrites the previous assignment. -/
theorem objSet_objSet_same (fs : List (String × Jval)) (k : String) (v v2 : Jval) :
    objSet (objSet fs k v) k v2 = objSet fs k v2 := by
  induction fs with
  | nil => simp [objSet]
  | cons kv t ih =>
    obtain ⟨k2, w⟩ := kv
    by_cases h : k2 = k
    · subst h
      simp [objSet]
    · simp [objSet, h, ih]

/-- An assigned key is present afterwards. -/
theorem objSet_key_mem (fs : List (String × Jval)) (k : String) (v : Jval) :
    k ∈ (objSet fs k v).map Prod.fst := by
  induction fs with
  | nil => simp [objSet]
  | cons kv t ih =>
    obtain ⟨k2, w⟩ := kv
    by_cases h : k2 = k
    · subst h
      simp [objSet]
    · simp only [objSet, if_neg h, List.map_cons, List.mem_cons]
      exact Or.inr ih

/-- Unfolding step of dict assignment at a cons cell. -/
theorem objSet_cons (k2 : String) (w : Jval) (t : List (String × Jval)) (k : String) (v : Jval) :
    objSet ((k2, w) :: t) k v = if k2 = k then (k, v) :: t else (k2, w) :: objSet t k v := rfl

/-- Assignment preserves the presence of every key. -/
theorem objSet_key_mem_of_mem (fs : List (String × Jval)) (k k2 : String) (v : Jval)
    (h : k ∈ fs.map Prod.fst) : k ∈ (objSet fs k2 v).map Prod.fst := by
  induction fs with
  | nil => cases h
  | cons kv t ih =>
    obtain ⟨k3, w⟩ := kv
    rw [objSet_cons]
    by_cases h3 : k3 = k2
    · rw [if_pos h3]
      simp only [List.map_cons, List.mem_cons] at h ⊢
      rcases h with h | h
      · exact Or.inl (h.trans h3)
      · exact Or.inr h
    · rw [if_neg h3]
      simp only [List.map_cons, List.mem_cons] at h ⊢
      rcases h with h | h
      · exact Or.inl h
      · exact Or.inr (ih h)

/-- Assigning a *present* key commutes with assigning a different key. -/
theorem objSet_comm_of_mem (fs : List (String × Jval)) (k k2 : String) (v w : Jval)
    (hk : k ∈ fs.map Prod.fst) (hne : k2 ≠ k) :
    objSet (objSet fs k2 w) k v = objSet (objSet fs k v) k2 w := by
  induction fs with
  | nil => cases hk
  | cons kv t ih =>
    obtain ⟨k3, w3⟩ := kv
    by_cases h2 : k3 = k2
    · subst h2
      have h3k : ¬(k3 = k) := hne
      simp [objSet, h3k, Ne.symm h3k]
    · by_cases h3 : k3 = k
      · subst h3
        simp [objSet, h2, Ne.symm hne]
      · rcases List.mem_cons.mp hk with rfl | hm
        · exact absurd rfl h3
        · simp [objSet, h2, h3, ih hm]

/-- Assigning a present key moves through a run of assignments to other keys. -/
theorem objSet_objSets_of_mem (us : List (String × Jval)) :
    ∀ (gs : List (String × Jval)) (k : String) (v : Jval),
    k ∈ gs.map Prod.fst → k ∉ us.map Prod.fst →
    objSet (objSets gs us) k v = objSets (objSet gs k v) us := by
  induction us with
  | nil => intro gs k v hk hus; rfl
  | cons kv us1 ih =>
    intro gs k v hk hus
    obtain ⟨k2, w⟩ := kv
    simp only [List.map_cons, List.mem_cons] at hus
    push_neg at hus
    obtain ⟨hne, hus1⟩ := hus
    rw [show objSets gs ((k2, w) :: us1) = objSets (objSet gs k2 w) us1 from rfl]
    rw [ih (objSet gs k2 w) k v (objSet_key_mem_of_mem gs k k2 w hk) hus1]
    rw [objSet_comm_of_mem gs k k2 v w hk (fun h => hne h.symm)]
    rfl

/-- Re-running a sequence of assignments over the same distinct keys
overwrites the previous run entirely. -/
theorem objSets_objSets (us : List (String × Jval)) :
    ∀ (us2 : List (String × Jval)) (fs : List (String × Jval)),
    us2.map Prod.fst = us.map Prod.fst → (us.map Prod.fst).Nodup →
    objSets (objSets fs us) us2 = objSets fs us2 := by
  induction us with
  | nil =>
    intro us2 fs hmap hnd
    rw [List.map_eq_nil_iff.mp hmap]
    rfl
  | cons kv us1 ih =>
    intro us2 fs hmap hnd
    obtain ⟨k, v⟩ := kv
    cases us2 with
    | nil => simp at hmap
    | cons kv2 us21 =>
      obtain ⟨k2, v2⟩ := kv2
      simp only [List.map_cons, List.cons.injEq] at hmap
      obtain ⟨hk2, hmap1⟩ := hmap
      subst hk2
      simp only [List.map_cons, List.nodup_cons] at hnd
      obtain ⟨hknotin, hnd1⟩ := hnd
      rw [show objSets fs ((k2, v) :: us1) = objSets (objSet fs k2 v) us1 from rfl]
      rw [show objSets (objSets (objSet fs k2 v) us1) ((k2, v2) :: us21) =
        objSets (objSet (objSets (objSet fs k2 v) us1) k2 v2) us21 from rfl]
      rw [objSet_objSets_of_mem us1 (objSet fs k2 v) k2 v2 (objSet_key_mem fs k2 v) hknotin]
      rw [objSet_objSet_same fs k2 v v2]
      rw [ih us21 (objSet fs k2 v2) hmap1 hnd1]
      rfl

/-- Re-running the four attributes-level assignments overwrites a previous
run. -/
theorem objSet_chain4_absorb (gs : List (String × Jval)) (a b c P a2 b2 c2 P2 : Jval) :
    objSet (objSet (objSet (objSet
      (objSet (objSet (objSet (objSet gs "viewId" a) "routeType" b)
        "themeLayoutType" c) "params" P)
      "viewId" a2) "routeType" b2) "themeLayoutType" c2) "params" P2 =
    objSet (objSet (objSet (objSet gs "viewId" a2) "routeType" b2)
      "themeLayoutType" c2) "params" P2 :=
  objSets_objSets
    [("viewId", a), ("routeType", b), ("themeLayoutType", c), ("params", P)]
    [("viewId", a2), ("routeType", b2), ("themeLayoutType", c2), ("params", P2)] gs
    rfl
    (by decide :
      (["viewId", "routeType", "themeLayoutType", "params"] : List String).Nodup)

/-- Re-running the three params-level assignments overwrites a previous
run. -/
theorem objSet_chain3_absorb (gs : List (String × Jval)) (T u w T2 u2 w2 : Jval) :
    objSet (objSet (objSet
      (objSet (objSet (objSet gs "attributes" T) "publishedChangelistNum" u)
        "brandingSetId" w)
      "attributes" T2) "publishedChangelistNum" u2) "brandingSetId" w2 =
    objSet (objSet (objSet gs "attributes" T2) "publishedChangelistNum" u2)
      "brandingSetId" w2 :=
  objSets_objSets
    [("attributes", T), ("publishedChangelistNum", u), ("brandingSetId", w)]
    [("attributes", T2), ("publishedChangelistNum", u2), ("brandingSetId", w2)] gs
    rfl
    (by decide :
      (["attributes", "publishedChangelistNum", "brandingSetId"] : List String).Nodup)

/-- Running one payload pass over a decomposed template: the three upper
lookups determine everything except the nested attributes-params object. -/
theorem createPayload_run (fs afs : List (String × Jval)) (t : List Jval)
    (psf atf : List (String × Jval)) (r : Route)
    (hact : jGetF fs "actions" = some (.arr (.obj afs :: t)))
    (hpar : jGetF afs "params" = some (.obj psf))
    (hatt : jGetF psf "attributes" = some (.obj atf)) :
    createPayload (.obj fs) r =
      match jGetF atf "params" with
      | none => .error .keyErr
      | some (.obj apf) => .ok (buildPayload fs afs t psf atf apf r)
      | some _ => .error .typeErr := by
  have ho1 : jGetF (objSet (objSet (objSet atf "viewId" r.id) "routeType" r.event)
      "themeLayoutType" r.themeLayoutType) "params" = jGetF atf "params" := by
    rw [jGetF_objSet_other _ _ _ _ (by decide),
      jGetF_objSet_other _ _ _ _ (by decide),
      jGetF_objSet_other _ _ _ _ (by decide)]
  simp only [createPayload, updatePath, hact, hpar, hatt, jGetF_objSet_same,
    objSet_objSet_same, ho1]
  cases hprm : jGetF atf "params" with
  | none => rfl
  | some w =>
    cases w with
    | obj apf =>
      simp only [updatePath, jGetF_objSet_same, objSet_objSet_same, buildPayload]
    | null => rfl
    | bool b => rfl
    | num n => rfl
    | str s => rfl
    | arr xs => rfl

/-- Success of one payload pass forces the template's shape: an object with
`actions` a non-empty list of an object whose `params`, `attributes` and
nested `params` are objects; the result is the pass's normal form. -/
theorem createPayload_shape (p : Jval) (r : Route) (q : Jval)
    (h : createPayload p r = .ok q) :
    ∃ fs afs t psf atf apf,
      p = .obj fs ∧
      jGetF fs "actions" = some (.arr (.obj afs :: t)) ∧
      jGetF afs "params" = some (.obj psf) ∧
      jGetF psf "attributes" = some (.obj atf) ∧
      jGetF atf "params" = some (.obj apf) ∧
      q = buildPayload fs afs t psf atf apf r := by
  cases p with
  | null => exact Except.noConfusion h
  | bool b => exact Except.noConfusion h
  | num n => exact Except.noConfusion h
  | str s => exact Except.noConfusion h
  | arr xs => exact Except.noConfusion h
  | obj fs =>
    cases hact : jGetF fs "actions" with
    | none => simp [createPayload, updatePath, hact] at h
    | some w =>
      cases w with
      | null => simp [createPayload, updatePath, hact] at h
      | bool b => simp [createPayload, updatePath, hact] at h
      | num n => simp [createPayload, updatePath, hact] at h
      | str s => simp [createPayload, updatePath, hact] at h
      | obj gs => simp [createPayload, updatePath, hact] at h
      | arr xs =>
        cases xs with
        | nil => simp [createPayload, updatePath, hact] at h
        | cons x t =>
          cases x with
          | null => simp [createPayload, updatePath, hact] at h
          | bool b => simp [createPayload, updatePath, hact] at h
          | num n => simp [createPayload, updatePath, hact] at h
          | str s => simp [createPayload, updatePath, hact] at h
          | arr ys => simp [createPayload, updatePath, hact] at h
          | obj afs =>
            cases hpar : jGetF afs "params" with
            | none => simp [createPayload, updatePath, hact, hpar] at h
            | some v =>
              cases v with
              | null => simp [createPayload, updatePath, hact, hpar] at h
              | bool b => simp [createPayload, updatePath, hact, hpar] at h
              | num n => simp [createPayload, updatePath, hact, hpar] at h
              | str s => simp [createPayload, updatePath, hact, hpar] at h
              | arr ys => simp [createPayload, updatePath, hact, hpar] at h
              | obj psf =>
                cases hatt : jGetF psf "attributes" with
                | none => simp [createPayload, updatePath, hact, hpar, hatt] at h
                | some u =>
                  cases u with
                  | null => simp [createPayload, updatePath, hact, hpar, hatt] at h
                  | bool b => simp [createPayload, updatePath, hact, hpar, hatt] at h
                  | num n => simp [createPayload, updatePath, hact, hpar, hatt] at h
                  | str s => simp [createPayload, updatePath, hact, hpar, hatt] at h
                  | arr ys => simp [createPayload, updatePath, hact, hpar, hatt] at h
                  | obj atf =>
                    rw [createPayload_run fs afs t psf atf r hact hpar hatt] at h
                    cases hprm : jGetF atf "params" with
                    | none => rw [hprm] at h; exact Except.noConfusion h
                    | some w2 =>
                      cases w2 with
                      | null => rw [hprm] at h; exact Except.noConfusion h
                      | bool b => rw [hprm] at h; exact Except.noConfusion h
                      | num n => rw [hprm] at h; exact Except.noConfusion h
                      | str s => rw [hprm] at h; exact Except.noConfusion h
                      | arr ys => rw [hprm] at h; exact Except.noConfusion h
                      | obj apf =>
                        rw [hprm] at h
                        injection h with h
                        exact ⟨fs, afs, t, psf, atf, apf, rfl, hact, hpar, hatt,
                          hprm, h.symm⟩

/-- A second pass over an already-processed template gives the same result
as a pass over the original template. -/
theorem createPayload_absorb (p q : Jval) (r r2 : Route)
    (h : createPayload p r = .ok q) :
    createPayload q r2 = createPayload p r2 := by
  obtain ⟨fs, afs, t, psf, atf, apf, rfl, hact, hpar, hatt, hprm, rfl⟩ :=
    createPayload_shape p r q h
  have hact2 : jGetF (objSet fs "actions"
      (.arr (.obj (objSet afs "params" (.obj
        (objSet (objSet (objSet psf "attributes" (.obj
          (objSet (objSet (objSet (objSet atf "viewId" r.id) "routeType" r.event)
            "themeLayoutType" r.themeLayoutType)
            "params" (.obj (objSet apf "viewid" r.view_uuid)))))
          "publishedChangelistNum" r.publishedChangelistNum)
          "brandingSetId" r.brandingSetId))) :: t))) "actions" =
      some (.arr (.obj (objSet afs "params" (.obj
        (objSet (objSet (objSet psf "attributes" (.obj
          (objSet (objSet (objSet (objSet atf "viewId" r.id) "routeType" r.event)
            "themeLayoutType" r.themeLayoutType)
            "params" (.obj (objSet apf "viewid" r.view_uuid)))))
          "publishedChangelistNum" r.publishedChangelistNum)
          "brandingSetId" r.brandingSetId))) :: t)) :=
    jGetF_objSet_same _ _ _
  have hpar2 : jGetF (objSet afs "params" (.obj
      (objSet (objSet (objSet psf "attributes" (.obj
        (objSet (objSet (objSet (objSet atf "viewId" r.id) "routeType" r.event)
          "themeLayoutType" r.themeLayoutType)
          "params" (.obj (objSet apf "viewid" r.view_uuid)))))
        "publishedChangelistNum" r.publishedChangelistNum)
        "brandingSetId" r.brandingSetId))) "params" =
      some (.obj
        (objSet (objSet (objSet psf "attributes" (.obj
          (objSet (objSet (objSet (objSet atf "viewId" r.id) "routeType" r.event)
            "themeLayoutType" r.themeLayoutType)
            "params" (.obj (objSet apf "viewid" r.view_uuid)))))
          "publishedChangelistNum" r.publishedChangelistNum)
          "brandingSetId" r.brandingSetId)) :=
    jGetF_objSet_same _ _ _
  have hatt2 : jGetF
      (objSet (objSet (objSet psf "attributes" (.obj
        (objSet (objSet (objSet (objSet atf "viewId" r.id) "routeType" r.event)
          "themeLayoutType" r.themeLayoutType)
          "params" (.obj (objSet apf "viewid" r.view_uuid)))))
        "publishedChangelistNum" r.publishedChangelistNum)
        "brandingSetId" r.brandingSetId) "attributes" =
      some (.obj
        (objSet (objSet (objSet (objSet atf "viewId" r.id) "routeType" r.event)
          "themeLayoutType" r.themeLayoutType)
          "params" (.obj (objSet apf "viewid" r.view_uuid)))) := by
    rw [jGetF_objSet_other _ _ _ _ (by decide),
      jGetF_objSet_other _ _ _ _ (by decide), jGetF_objSet_same]
  have hprm2 : jGetF
      (objSet (objSet (objSet (objSet atf "viewId" r.id) "routeType" r.event)
        "themeLayoutType" r.themeLayoutType)
        "params" (.obj (objSet apf "viewid" r.view_uuid))) "params" =
      some (.obj (objSet apf "viewid" r.view_uuid)) :=
    jGetF_objSet_same _ _ _
  rw [createPayload_run fs afs t psf atf r2 hact hpar hatt, hprm]
  rw [show buildPayload fs afs t psf atf apf r = .obj (objSet fs "actions"
      (.arr (.obj (objSet afs "params" (.obj
        (objSet (objSet (objSet psf "attributes" (.obj
          (objSet (objSet (objSet (objSet atf "viewId" r.id) "routeType" r.event)
            "themeLayoutType" r.themeLayoutType)
            "params" (.obj (objSet apf "viewid" r.view_uuid)))))
          "publishedChangelistNum" r.publishedChangelistNum)
          "brandingSetId" r.brandingSetId))) :: t))) from rfl]
  rw [createPayload_run _ _ _ _ _ r2 hact2 hpar2 hatt2, hprm2]
  simp only [buildPayload, objSet_objSet_same, objSet_chain4_absorb, objSet_chain3_absorb]

/-- C9: although `collect` threads one mutated template object through the
route loop, every payload sent is observably identical to one built fresh
from the original template with that route's six overrides: when the loop
succeeds, payload `i` equals `createPayload` applied to the *original*
template and route `i`. -/
theorem claim_C9_payloads_template_independent (rs : List Route) :
    ∀ (p : Jval) (l : List Jval), collectPayloads p rs = .ok l →
    l.length = rs.length ∧
    ∀ (i : Nat) (hi : i < rs.length) (hl : i < l.length),
      createPayload p (rs.get ⟨i, hi⟩) = .ok (l.get ⟨i, hl⟩) := by
  induction rs with
  | nil =>
    intro p l h
    simp only [collectPayloads] at h
    injection h with h
    subst h
    exact ⟨rfl, fun i hi => absurd hi (by simp)⟩
  | cons r rs1 ih =>
    intro p l h
    simp only [collectPayloads] at h
    cases hq : createPayload p r with
    | error e => simp [hq] at h
    | ok q =>
      simp only [hq] at h
      cases hc : collectPayloads q rs1 with
      | error e => simp [hc] at h
      | ok l1 =>
        simp only [hc] at h
        injection h with h
        subst h
        obtain ⟨hlen, hmem⟩ := ih q l1 hc
        refine ⟨by simp [hlen], ?_⟩
        intro i hi hl
        cases i with
        | zero => exact hq
        | succ j =>
          have hi2 : j < rs1.length := Nat.lt_of_succ_lt_succ hi
          have hl2 : j < l1.length := Nat.lt_of_succ_lt_succ hl
          show createPayload p (rs1.get ⟨j, hi2⟩) = .ok (l1.get ⟨j, hl2⟩)
          rw [← createPayload_absorb p q r (rs1.get ⟨j, hi2⟩) hq]
          exact hmem j hi2 hl2

/-- Witness for C9 at a one-route loop over a minimal template. -/
theorem claim_C9_payloads_template_independent_witness :
    createPayload
      (.obj [("actions", .arr [.obj [("params", .obj [("attributes",
        .obj [("params", .obj [])])])]])])
      (⟨.str "i", .str "e", .str "t", .str "u", .num 1, .str "b"⟩ : Route) =
      .ok (.obj [("actions", .arr [.obj [("params", .obj [("attributes",
        .obj [("params", .obj [("viewid", .str "u")]), ("viewId", .str "i"),
          ("routeType", .str "e"), ("themeLayoutType", .str "t")]),
        ("publishedChangelistNum", .num 1), ("brandingSetId", .str "b")])]])]) :=
  (claim_C9_payloads_template_independent
    [⟨.str "i", .str "e", .str "t", .str "u", .num 1, .str "b"⟩]
    (.obj [("actions", .arr [.obj [("params", .obj [("attributes",
      .obj [("params", .obj [])])])]])])
    [.obj [("actions", .arr [.obj [("params", .obj [("attributes",
      .obj [("params", .obj [("viewid", .str "u")]), ("viewId", .str "i"),
        ("routeType", .str "e"), ("themeLayoutType", .str "t")]),
      ("publishedChangelistNum", .num 1), ("brandingSetId", .str "b")])]])]]
    rfl).2 0 (by decide) (by decide)

/-- Percent-encoding of ASCII text never produces a slash. -/
theorem quoteL_no_slash {cs : List Char} (ha : ∀ c ∈ cs, c.toNat < 128) :
    ∀ x ∈ quoteL cs, x ≠ '/' := by
  induction cs with
  | nil => intro x hx; simp [quoteL] at hx
  | cons c t ih =>
    intro x hx
    rw [quoteL_cons] at hx
    rcases List.mem_append.mp hx with hm | hm
    · by_cases hs : isSafeUrl c = true
      · rw [quoteChar_safe hs] at hm
        simp only [List.mem_singleton] at hm
        subst hm
        intro he
        subst he
        exact absurd hs (by decide)
      · have hs2 : isSafeUrl c = false := by
          cases h2 : isSafeUrl c with
          | true => exact absurd h2 hs
          | false => rfl
        rw [quoteChar_unsafe_ascii hs2 (ha c (by simp))] at hm
        have h16a : c.toNat / 16 % 16 < 16 := by omega
        have h16b : c.toNat % 16 < 16 := by omega
        simp only [List.mem_cons, List.not_mem_nil, or_false] at hm
        rcases hm with rfl | rfl | rfl
        · decide
        · apply char_ne_of_toNat_ne
          rw [toNat_hexDigitUC h16a, show ('/' : Char).toNat = 47 from rfl]
          split <;> omega
        · apply char_ne_of_toNat_ne
          rw [toNat_hexDigitUC h16b, show ('/' : Char).toNat = 47 from rfl]
          split <;> omega
    · exact ih (fun y hy => ha y (by simp [hy])) x hm

/-- An interior `fwuid` occurrence survives prepending a character. -/
theorem fwuidInner_cons_skip (c : Char) (t : List Char) (h : fwuidInner t = true) :
    fwuidInner (c :: t) = true := by
  simp [fwuidInner, h]

/-- A direct `fwuid` occurrence after one character is an interior one. -/
theorem fwuidInner_cons_at (c : Char) (t : List Char) (h : fwuidAt t = true) :
    fwuidInner (c :: t) = true := by
  simp [fwuidInner, h]

/-- C7: the extractor inverts the encoder — embedding the serialized,
URL-encoded Aura config (its `fwuid` field first, the remaining fields and
all values arbitrary) in the path `/s/sfsites/l/<encoded>/` and running the
regex scrape, URL-decode and JSON parse returns the config unchanged. -/
theorem claim_C7_extract_encode_roundtrip (fv : Jval) (fs2 : List (String × Jval)) :
    extractAuraEndpointDetails
      ("/s/sfsites/l/" ++ quote (jsonDumps (.obj (("fwuid", fv) :: fs2))) ++ "/") =
      .ok (.obj (("fwuid", fv) :: fs2)) := by
  obtain ⟨tl, htl⟩ := serFields_cons_ex "fwuid" fv fs2
  rw [show escStr "fwuid".data = ['f', 'w', 'u', 'i', 'd'] from rfl] at htl
  have hsv : serVal (.obj (("fwuid", fv) :: fs2)) =
      '{' :: '"' :: 'f' :: 'w' :: 'u' :: 'i' :: 'd' :: '"' :: ':' ::
        (serVal fv ++ (tl ++ ['}'])) := by
    rw [show serVal (.obj (("fwuid", fv) :: fs2)) =
      '{' :: serFields (("fwuid", fv) :: fs2) ++ ['}'] from rfl, htl]
    simp
  have hasc : ∀ c ∈ serVal (.obj (("fwuid", fv) :: fs2)), c.toNat < 128 :=
    serVal_ascii _
  have henc : quoteL (serVal (.obj (("fwuid", fv) :: fs2))) =
      '%' :: '7' :: 'B' :: '%' :: '2' :: '2' :: 'f' :: 'w' :: 'u' :: 'i' :: 'd' ::
        quoteL ('"' :: ':' :: (serVal fv ++ (tl ++ ['}']))) := by
    rw [hsv]
    rfl
  have hqlen : 0 < (quoteL ('"' :: ':' :: (serVal fv ++ (tl ++ ['}'])))).length := by
    have hL := quoteL_ne_lt ('"' :: ':' :: (serVal fv ++ (tl ++ ['}'])))
    simp only [List.length_cons] at hL
    omega
  have hbody : ("/s/sfsites/l/" ++
      quote (jsonDumps (.obj (("fwuid", fv) :: fs2))) ++ "/").data =
      '/' :: 's' :: '/' :: 's' :: 'f' :: 's' :: 'i' :: 't' :: 'e' :: 's' :: '/' :: 'l' :: '/' ::
        (quoteL (serVal (.obj (("fwuid", fv) :: fs2))) ++ ['/']) := by
    rfl
  have hall : ∀ x ∈ quoteL (serVal (.obj (("fwuid", fv) :: fs2))),
      (fun c => decide (c ≠ '/')) x = true :=
    fun x hx => decide_eq_true (quoteL_no_slash hasc x hx)
  have hsegAt : segAt ('/' :: 's' :: '/' :: 's' :: 'f' :: 's' :: 'i' :: 't' :: 'e' :: 's' ::
      '/' :: 'l' :: '/' :: (quoteL (serVal (.obj (("fwuid", fv) :: fs2))) ++ ['/'])) =
      some (quoteL (serVal (.obj (("fwuid", fv) :: fs2)))) := by
    unfold segAt
    rw [if_pos (by exact rfl)]
    simp only []
    rw [show ('/' :: 's' :: '/' :: 's' :: 'f' :: 's' :: 'i' :: 't' :: 'e' :: 's' ::
      '/' :: 'l' :: '/' :: (quoteL (serVal (.obj (("fwuid", fv) :: fs2))) ++ ['/'])).drop 13 =
      quoteL (serVal (.obj (("fwuid", fv) :: fs2))) ++ ['/'] from rfl]
    rw [takeWhile_append_all _ ['/'] hall]
    rw [show (['/'] : List Char).takeWhile (fun c => decide (c ≠ '/')) = [] from rfl]
    rw [List.append_nil]
    rw [if_pos ?hfw]
    case hfw =>
      rw [henc]
      apply fwuidInner_cons_skip
      apply fwuidInner_cons_skip
      apply fwuidInner_cons_skip
      apply fwuidInner_cons_skip
      apply fwuidInner_cons_skip
      apply fwuidInner_cons_at
      unfold fwuidAt
      rw [show List.isPrefixOf ['f', 'w', 'u', 'i', 'd'] ('f' :: 'w' :: 'u' :: 'i' :: 'd' ::
        quoteL ('"' :: ':' :: (serVal fv ++ (tl ++ ['}'])))) = true from rfl]
      rw [Bool.true_and]
      exact decide_eq_true (by simp only [List.length_cons]; omega)
  have hseg : findSeg ('/' :: 's' :: '/' :: 's' :: 'f' :: 's' :: 'i' :: 't' :: 'e' :: 's' ::
      '/' :: 'l' :: '/' :: (quoteL (serVal (.obj (("fwuid", fv) :: fs2))) ++ ['/'])) =
      some (quoteL (serVal (.obj (("fwuid", fv) :: fs2)))) := by
    rw [show findSeg ('/' :: 's' :: '/' :: 's' :: 'f' :: 's' :: 'i' :: 't' :: 'e' :: 's' ::
      '/' :: 'l' :: '/' :: (quoteL (serVal (.obj (("fwuid", fv) :: fs2))) ++ ['/'])) =
      match segAt ('/' :: 's' :: '/' :: 's' :: 'f' :: 's' :: 'i' :: 't' :: 'e' :: 's' ::
        '/' :: 'l' :: '/' :: (quoteL (serVal (.obj (("fwuid", fv) :: fs2))) ++ ['/'])) with
      | some r => some r
      | none => findSeg ('s' :: '/' :: 's' :: 'f' :: 's' :: 'i' :: 't' :: 'e' :: 's' ::
        '/' :: 'l' :: '/' :: (quoteL (serVal (.obj (("fwuid", fv) :: fs2))) ++ ['/']))
      from rfl]
    rw [hsegAt]
  have hcontains : strContains ("/s/sfsites/l/" ++
      quote (jsonDumps (.obj (("fwuid", fv) :: fs2))) ++ "/") "fwuid" = true := by
    unfold strContains
    rw [hbody, henc]
    have hca := containsSub_append "fwuid".data
      (quoteL ('"' :: ':' :: (serVal fv ++ (tl ++ ['}']))) ++ ['/'])
      ['/', 's', '/', 's', 'f', 's', 'i', 't', 'e', 's', '/', 'l', '/',
        '%', '7', 'B', '%', '2', '2']
    simpa using hca
  have hunq : unquote (String.mk (quoteL (serVal (.obj (("fwuid", fv) :: fs2))))) =
      jsonDumps (.obj (("fwuid", fv) :: fs2)) := by
    unfold unquote
    rw [show (String.mk (quoteL (serVal (.obj (("fwuid", fv) :: fs2))))).data =
      quoteL (serVal (.obj (("fwuid", fv) :: fs2))) from rfl]
    rw [unqF_quoteL _ _ (by omega) hasc]
    rfl
  unfold extractAuraEndpointDetails
  rw [hcontains]
  rw [if_neg (by decide : ¬(true = false))]
  rw [hbody, hseg]
  simp only []
  rw [hunq, jsonLoads_dumps]
